import Mathlib

/-!
Shallow embedding of the luno/shift transition engine (generic `GenFSM[T]`
version: `shift.go` executor, `builder.go` generic builder, and the
`helper_test.go` reachability verifier).

Go maps are modelled as association lists with unique keys (the builder
only ever assigns fresh keys, so lookup-extensionality coincides with Go
map equality).  Go interface values implementing `Status` are modelled by
`StatusVal`: `ident` stands for the (dynamic type, value) pair that Go
interface equality compares, `ss` for the `ShiftStatus()` result and `rt`
for the `ReflexType()` result.  Dynamic `reflect.TypeOf` identity of
request values is modelled by a `Nat` tag.  Fallible collaborator calls
(row mutators, metadata, validation, the event sink, transaction
begin/commit) are oracles returning `Except`.  Every capability invocation
is recorded in an effect trace so that ordering and absence-of-effect
properties can be stated.
-/

namespace Shift

/-- A Go `Status` interface value. -/
structure StatusVal where
  ident : Nat
  ss : Int
  rt : Int
deriving DecidableEq, Repr

/-- Error kinds of the shift package (`errors.go`), plus the verifier's
errors, opaque domain errors, and a marker for Go runtime panics. -/
inductive GoErr where
  | errRowCount
  | errUnknownStatus
  | errInvalidStateTransition
  | errInvalidType
  | errNoInsertStatus
  | errNotReachable
  | errNotInserter
  | errNotUpdater
  | errPanic
  | errDomain (code : Nat)
deriving DecidableEq, Repr

/-- The `[]byte` metadata; `none` models the nil slice. -/
abbrev Metadata := Option (List Nat)

/-- The Go `status` struct: one state node of the graph. -/
structure StateNode where
  st : StatusVal
  t : Int
  req : Nat
  insert : Bool
  next : List StatusVal
deriving DecidableEq, Repr

/-- Observable effects performed inside (and around) one transaction. -/
inductive Effect (T : Type) where
  | rowInsert (st : StatusVal)
  | rowUpdate (f : StatusVal) (t : StatusVal)
  | getMeta
  | insertEvent (id : T) (typ : Int) (md : Metadata)
  | validate
  | commit
  | notify
deriving DecidableEq, Repr

/-- A Go `Inserter[T]` value: dynamic type tag, the row-insert capability,
and the optional `MetadataInserter`/`ValidatingInserter` capabilities
(`none` models a dynamic type that does not implement the interface). -/
structure Inserter (T : Type) where
  tag : Nat
  insert : StatusVal → Except GoErr T
  getMetadata : Option (T → StatusVal → Except GoErr Metadata)
  validate : Option (T → StatusVal → Except GoErr Unit)

/-- A Go `Updater[T]` value, analogous to `Inserter`. -/
structure Updater (T : Type) where
  tag : Nat
  update : StatusVal → StatusVal → Except GoErr T
  getMetadata : Option (StatusVal → StatusVal → Except GoErr Metadata)
  validate : Option (StatusVal → StatusVal → Except GoErr Unit)

/-- The event sink (`eventInserter`): `InsertWithMetadata` staged in the
open transaction; the returned notify func is modelled by the `notify`
effect emitted by the convenience wrappers. -/
structure EventSink (T : Type) where
  insertWithMetadata : T → Int → Metadata → Except GoErr Unit

/-- FSM options (`options` struct). -/
structure Options where
  withMetadata : Bool
  withValidation : Bool
deriving DecidableEq, Repr

/-- The built FSM (`GenFSM[T]`). -/
structure GenFSM (T : Type) where
  opts : Options
  events : EventSink T
  states : List (Int × StateNode)
  insertStatus : Option StatusVal

/-- Go map lookup `states[k]` (presence form). -/
def lookupNode (states : List (Int × StateNode)) (k : Int) : Option StateNode :=
  match states with
  | [] => none
  | (k2, n) :: rest => if k2 = k then some n else lookupNode rest k

/-- Go map assignment `states[k] = n` (replace or add). -/
def mapAssign (states : List (Int × StateNode)) (k : Int) (n : StateNode) :
    List (Int × StateNode) :=
  match states with
  | [] => [(k, n)]
  | (k2, n2) :: rest =>
      if k2 = k then (k, n) :: rest else (k2, n2) :: mapAssign rest k n

/-- Go `delete(states, k)`. -/
def eraseKey (states : List (Int × StateNode)) (k : Int) : List (Int × StateNode) :=
  match states with
  | [] => []
  | (k2, n2) :: rest => if k2 = k then rest else (k2, n2) :: eraseKey rest k

/-- The `toMap`: build the `next` set, deduplicating (Go map keys are unique). -/
def toMap (l : List StatusVal) : List StatusVal :=
  l.foldl (fun m s => if s ∈ m then m else m ++ [s]) []

/-- Sequencing of trace-producing fallible steps: on error the effects so
far are kept and the continuation never runs. -/
def bindTr {T α β : Type} (x : Except GoErr α × List (Effect T))
    (f : α → Except GoErr β × List (Effect T)) : Except GoErr β × List (Effect T) :=
  match x with
  | (.error e, tr) => (.error e, tr)
  | (.ok a, tr) => ((f a).1, tr ++ (f a).2)

/-- Metadata step of `insertTx`: mandatory capability when the option is
enabled, skipped (metadata stays nil) otherwise. -/
def metaStepI {T : Type} (opts : Options) (ins : Inserter T) (id : T) (st : StatusVal) :
    Except GoErr Metadata × List (Effect T) :=
  if opts.withMetadata then
    match ins.getMetadata with
    | none => (.error .errInvalidType, [])
    | some g => (g id st, [.getMeta])
  else (.ok none, [])

/-- Validation step of `insertTx`. -/
def validateStepI {T : Type} (opts : Options) (ins : Inserter T) (id : T) (st : StatusVal) :
    Except GoErr Unit × List (Effect T) :=
  if opts.withValidation then
    match ins.validate with
    | none => (.error .errInvalidType, [])
    | some v => (v id st, [.validate])
  else (.ok (), [])

/-- The `insertTx` (shift.go): row insert, optional metadata, event emission,
optional validation, in that order. -/
def insertTx {T : Type} (st : StatusVal) (ins : Inserter T) (events : EventSink T)
    (eventType : Int) (opts : Options) : Except GoErr T × List (Effect T) :=
  bindTr (ins.insert st, [Effect.rowInsert st]) fun id =>
  bindTr (metaStepI opts ins id st) fun md =>
  bindTr (events.insertWithMetadata id eventType md, [Effect.insertEvent id eventType md]) fun _ =>
  bindTr (validateStepI opts ins id st) fun _ =>
  (.ok id, [])

/-- Metadata step of `updateTx`. -/
def metaStepU {T : Type} (opts : Options) (u : Updater T) (f t : StatusVal) :
    Except GoErr Metadata × List (Effect T) :=
  if opts.withMetadata then
    match u.getMetadata with
    | none => (.error .errInvalidType, [])
    | some g => (g f t, [.getMeta])
  else (.ok none, [])

/-- Validation step of `updateTx`. -/
def validateStepU {T : Type} (opts : Options) (u : Updater T) (f t : StatusVal) :
    Except GoErr Unit × List (Effect T) :=
  if opts.withValidation then
    match u.validate with
    | none => (.error .errInvalidType, [])
    | some v => (v f t, [.validate])
  else (.ok (), [])

/-- The `updateTx` (shift.go): row update, optional metadata, event emission,
optional validation.  The event carries the id returned by the updater. -/
def updateTx {T : Type} (f t : StatusVal) (u : Updater T) (events : EventSink T)
    (eventType : Int) (opts : Options) : Except GoErr Unit × List (Effect T) :=
  bindTr (u.update f t, [Effect.rowUpdate f t]) fun id =>
  bindTr (metaStepU opts u f t) fun md =>
  bindTr (events.insertWithMetadata id eventType md, [Effect.insertEvent id eventType md]) fun _ =>
  bindTr (validateStepU opts u f t) fun _ =>
  (.ok (), [])

/-- The `GenFSM.InsertTx`: type-check the inserter against the insert node's
bound request type, then run `insertTx`.  An unset insert status would be
a nil dereference in Go (`errPanic`); a missing node yields the zero
`status` value whose nil `req` never matches a real inserter. -/
def GenFSM.InsertTx {T : Type} (fsm : GenFSM T) (ins : Inserter T) :
    Except GoErr T × List (Effect T) :=
  match fsm.insertStatus with
  | none => (.error .errPanic, [])
  | some st =>
    match lookupNode fsm.states st.ss with
    | none => (.error .errInvalidType, [])
    | some node =>
      if node.req = ins.tag then insertTx st ins fsm.events node.t fsm.opts
      else (.error .errInvalidType, [])

/-- The `GenFSM.UpdateTx`: look up `to` (unknown status / invalid type), then
`from` (unknown status / invalid state transition), then run `updateTx`. -/
def GenFSM.UpdateTx {T : Type} (fsm : GenFSM T) (f t : StatusVal) (u : Updater T) :
    Except GoErr Unit × List (Effect T) :=
  match lookupNode fsm.states t.ss with
  | none => (.error .errUnknownStatus, [])
  | some tn =>
    if tn.req = u.tag then
      match lookupNode fsm.states f.ss with
      | none => (.error .errUnknownStatus, [])
      | some fn =>
        if t ∈ fn.next then updateTx f t u fsm.events tn.t fsm.opts
        else (.error .errInvalidStateTransition, [])
    else (.error .errInvalidType, [])

/-- Transaction begin/commit oracle for one convenience call. -/
structure TxOracle where
  begin : Except GoErr Unit
  commit : Except GoErr Unit

/-- The `GenFSM.Insert` (convenience variant): begin, `InsertTx`, commit,
notify.  On any failure the deferred rollback fires and neither the
commit nor the notify effect is observed. -/
def GenFSM.Insert {T : Type} (fsm : GenFSM T) (db : TxOracle) (ins : Inserter T) :
    Except GoErr T × List (Effect T) :=
  match db.begin with
  | .error e => (.error e, [])
  | .ok _ =>
    match fsm.InsertTx ins with
    | (.error e, tr) => (.error e, tr)
    | (.ok id, tr) =>
      match db.commit with
      | .error e => (.error e, tr)
      | .ok _ => (.ok id, tr ++ [.commit, .notify])

/-- The `GenFSM.Update` (convenience variant). -/
def GenFSM.Update {T : Type} (fsm : GenFSM T) (db : TxOracle) (f t : StatusVal)
    (u : Updater T) : Except GoErr Unit × List (Effect T) :=
  match db.begin with
  | .error e => (.error e, [])
  | .ok _ =>
    match fsm.UpdateTx f t u with
    | (.error e, tr) => (.error e, tr)
    | (.ok _, tr) =>
      match db.commit with
      | .error e => (.error e, tr)
      | .ok _ => (.ok (), tr ++ [.commit, .notify])

/-! ## Builder (builder.go, generic version) -/

/-- The `initer[T]`, the builder state before the insert declaration. -/
abbrev Initer (T : Type) := GenFSM T

/-- The `builder[T]`, the builder state after the insert declaration; it only
offers `Update`, so a second insert declaration is not expressible. -/
abbrev Builder (T : Type) := GenFSM T

/-- Build-time failures (Go panics). -/
inductive BuildErr where
  | stateAlreadyAdded
deriving DecidableEq, Repr

/-- The `WithMetadata` option. -/
def WithMetadata : Options → Options := fun o => { o with withMetadata := true }

/-- The `WithValidation` option. -/
def WithValidation : Options → Options := fun o => { o with withValidation := true }

/-- The `NewGenFSM`: empty state map, options folded over the zero value. -/
def NewGenFSM {T : Type} (events : EventSink T) (optfs : List (Options → Options)) :
    Initer T :=
  { opts := optfs.foldl (fun o f => f o) ⟨false, false⟩
    events := events
    states := []
    insertStatus := none }

/-- The builder method `initer[T].Insert`: declare the insert status.  Note the node is
stored with `insert := false`, exactly as the source does. -/
def Initer.Insert {T : Type} (c : Initer T) (st : StatusVal) (ins : Inserter T)
    (next : List StatusVal) : Builder T :=
  { c with
    states := mapAssign c.states st.ss ⟨st, st.rt, ins.tag, false, toMap next⟩
    insertStatus := some st }

/-- The `builder[T].Update`: declare an update status; a duplicate key is a
build-time panic, modelled as `Except.error`. -/
def Builder.Update {T : Type} (b : Builder T) (st : StatusVal) (u : Updater T)
    (next : List StatusVal) : Except BuildErr (Builder T) :=
  match lookupNode b.states st.ss with
  | some _ => .error .stateAlreadyAdded
  | none =>
      .ok { b with states := mapAssign b.states st.ss ⟨st, st.rt, u.tag, false, toMap next⟩ }

/-- The `builder[T].Build`. -/
def Builder.Build {T : Type} (b : Builder T) : GenFSM T := b

/-- One update declaration, for describing whole builder runs. -/
structure UpdDecl (T : Type) where
  st : StatusVal
  u : Updater T
  next : List StatusVal

/-- Fold a list of update declarations over a builder. -/
def buildUpdates {T : Type} (b : Builder T) : List (UpdDecl T) → Except BuildErr (Builder T)
  | [] => .ok b
  | d :: ds =>
    match Builder.Update b d.st d.u d.next with
    | .error e => .error e
    | .ok b2 => buildUpdates b2 ds

/-- A complete builder run: `NewGenFSM(...).Insert(...).Update(...)*.Build()`. -/
def buildFSM {T : Type} (events : EventSink T) (optfs : List (Options → Options))
    (ist : StatusVal) (ins : Inserter T) (inext : List StatusVal)
    (us : List (UpdDecl T)) : Except BuildErr (GenFSM T) :=
  match buildUpdates (Initer.Insert (NewGenFSM events optfs) ist ins inext) us with
  | .error e => .error e
  | .ok b => .ok (Builder.Build b)

/-! ## Reachability verifier (helper_test.go) -/

/-- The zero value of the Go `status` struct (what `states[k]` yields for
an absent key). -/
def zeroNode : StateNode := ⟨⟨0, 0, 0⟩, 0, 0, false, []⟩

/-- Erasing a present key strictly shrinks the list. -/
theorem eraseKey_length_lt {states : List (Int × StateNode)} {k : Int} {n : StateNode}
    (h : lookupNode states k = some n) : (eraseKey states k).length < states.length := by
  induction states with
  | nil => simp [lookupNode] at h
  | cons p rest ih =>
    by_cases hk : p.1 = k
    · simp [lookupNode, eraseKey, hk]
    · simp only [lookupNode, eraseKey, hk, if_false, List.length_cons] at h ⊢
      exact Nat.succ_lt_succ (ih h)

mutual

/-- The `buildPaths` (helper_test.go): cycle-breaking depth-first enumeration
of the paths from `f`.  Returns the emitted paths together with the state
map as left behind by the delete/restore pair.  Go map iteration order is
arbitrary; the model iterates `next` in list order. -/
def buildPaths (states : List (Int × StateNode)) (f : StatusVal) :
    List (List StateNode) × List (Int × StateNode) :=
  match h : lookupNode states f.ss with
  | none =>
      -- Go: `here` is the zero node, delete is a no-op, the final
      -- assignment inserts the zero node; `hasEnd` is true.
      ([[zeroNode]], states ++ [(f.ss, zeroNode)])
  | some here =>
      let states1 := eraseKey states f.ss
      let r := buildPathsLoop states1 here.next
      let res := if here.next.isEmpty || r.2 then r.1.map (fun q => here :: q) ++ [[here]]
                 else r.1.map (fun q => here :: q)
      (res, states1 ++ [(f.ss, here)])
termination_by (states.length, 0, 0)
decreasing_by
  all_goals first
    | exact Prod.Lex.left _ _ (eraseKey_length_lt h)
    | exact Prod.Lex.right _ (Prod.Lex.left _ _ Nat.zero_lt_one)
    | exact Prod.Lex.right _ (Prod.Lex.right _ (Nat.lt_succ_self _))

/-- Loop body of `buildPaths` over the `next` set: collects the sub-paths
(not yet prefixed with the current node) and whether some successor was
unavailable (`hasEnd` contribution). -/
def buildPathsLoop (states1 : List (Int × StateNode)) (l : List StatusVal) :
    List (List StateNode) × Bool :=
  match l with
  | [] => ([], false)
  | nx :: rest =>
      match lookupNode states1 nx.ss with
      | none =>
          let r := buildPathsLoop states1 rest
          (r.1, true)
      | some _ =>
          let p := buildPaths states1 nx
          let r := buildPathsLoop states1 rest
          (p.1 ++ r.1, r.2)
termination_by (states1.length, 1, l.length)
decreasing_by
  all_goals first
    | exact Prod.Lex.right _ (Prod.Lex.left _ _ Nat.zero_lt_one)
    | exact Prod.Lex.right _ (Prod.Lex.right _ (Nat.lt_succ_self _))

end

/-- The update phase of one verifier path: drive `fsm.Update` through the
tail of the path, threading the `from` status and marking each entered
status as found. -/
def runUpdates {T : Type} (fsm : GenFSM T) (db : TxOracle)
    (synthUpd : Nat → T → Except GoErr (Updater T)) (id : T) :
    StatusVal → List StateNode → List Int → Except GoErr (List Int)
  | _, [], found => .ok found
  | fromSt, up :: rest, found =>
      match synthUpd up.req id with
      | .error e => .error e
      | .ok u =>
        match (fsm.Update db fromSt up.st u).1 with
        | .error e => .error e
        | .ok _ => runUpdates fsm db synthUpd id up.st rest (found ++ [up.st.ss])

/-- One verifier path: synthesize an inserter for the head node, insert,
then update along the tail. -/
def runPath {T : Type} (fsm : GenFSM T) (db : TxOracle)
    (synthIns : Nat → Except GoErr (Inserter T))
    (synthUpd : Nat → T → Except GoErr (Updater T))
    (path : List StateNode) (found : List Int) : Except GoErr (List Int) :=
  match path with
  | [] => .error .errPanic
  | head :: rest =>
      match synthIns head.req with
      | .error e => .error e
      | .ok ins =>
        match (fsm.Insert db ins).1 with
        | .error e => .error e
        | .ok id => runUpdates fsm db synthUpd id head.st rest found

/-- All verifier paths in order, threading the found set, stopping at the
first error. -/
def runPaths {T : Type} (fsm : GenFSM T) (db : TxOracle)
    (synthIns : Nat → Except GoErr (Inserter T))
    (synthUpd : Nat → T → Except GoErr (Updater T)) :
    List (List StateNode) → List Int → Except GoErr (List Int)
  | [], found => .ok found
  | p :: ps, found =>
      match runPath fsm db synthIns synthUpd p found with
      | .error e => .error e
      | .ok found2 => runPaths fsm db synthIns synthUpd ps found2

/-- The final reachability check of `TestFSM`. -/
def anyUnreached (states : List (Int × StateNode)) (found : List Int) : Bool :=
  states.any (fun p => !found.contains p.1)

/-- The `TestFSM` (helper_test.go): drive the FSM through every enumerated
path with synthesized requests; report `errNotReachable` when a declared
status was never visited.  Request synthesis (`randomInsert` /
`randomUpdate`, reflection plus randomness in Go) is an oracle from the
node's bound request type tag. -/
def TestFSM {T : Type} (fsm : GenFSM T) (db : TxOracle)
    (synthIns : Nat → Except GoErr (Inserter T))
    (synthUpd : Nat → T → Except GoErr (Updater T)) : Except GoErr Unit :=
  match fsm.insertStatus with
  | none => .error .errNoInsertStatus
  | some ist =>
    match runPaths fsm db synthIns synthUpd (buildPaths fsm.states ist).1 [ist.ss] with
    | .error e => .error e
    | .ok found => if anyUnreached fsm.states found then .error .errNotReachable else .ok ()

/-! ## Basic lemmas about the trace combinators -/

@[simp]
theorem bindTr_error {T α β : Type} (e : GoErr) (tr : List (Effect T))
    (f : α → Except GoErr β × List (Effect T)) :
    bindTr (.error e, tr) f = (.error e, tr) := rfl

@[simp]
theorem bindTr_ok {T α β : Type} (a : α) (tr : List (Effect T))
    (f : α → Except GoErr β × List (Effect T)) :
    bindTr (.ok a, tr) f = ((f a).1, tr ++ (f a).2) := rfl

/-- Characterization of a successful `insertTx` run: each step succeeded
and the trace is row insert, metadata step, event, validation step. -/
theorem insertTx_ok_elim {T : Type} {st : StatusVal} {ins : Inserter T}
    {events : EventSink T} {eventType : Int} {opts : Options} {id : T}
    {tr : List (Effect T)}
    (h : insertTx st ins events eventType opts = (.ok id, tr)) :
    ins.insert st = .ok id ∧
    ∃ md trm trv,
      metaStepI opts ins id st = (.ok md, trm) ∧
      events.insertWithMetadata id eventType md = .ok () ∧
      validateStepI opts ins id st = (.ok (), trv) ∧
      tr = [.rowInsert st] ++ trm ++ [.insertEvent id eventType md] ++ trv := by
  unfold insertTx at h
  rcases hi : ins.insert st with e | id0 <;> rw [hi] at h
  · simp at h
  · simp only [bindTr_ok] at h
    rcases hm : metaStepI opts ins id0 st with ⟨rm, trm⟩
    rcases rm with e | md <;> rw [hm] at h <;> simp at h
    rcases he : events.insertWithMetadata id0 eventType md with e | ⟨⟩ <;> rw [he] at h <;>
      simp at h
    rcases hv : validateStepI opts ins id0 st with ⟨rv, trv⟩
    rcases rv with e | ⟨⟩ <;> rw [hv] at h <;> simp at h
    obtain ⟨hid, htr⟩ := h
    subst hid
    exact ⟨rfl, md, trm, trv, hm, he, hv, by simp [htr.symm]⟩

/-- Characterization of a successful `updateTx` run. -/
theorem updateTx_ok_elim {T : Type} {f t : StatusVal} {u : Updater T}
    {events : EventSink T} {eventType : Int} {opts : Options}
    {tr : List (Effect T)}
    (h : updateTx f t u events eventType opts = (.ok (), tr)) :
    ∃ id md trm trv,
      u.update f t = .ok id ∧
      metaStepU opts u f t = (.ok md, trm) ∧
      events.insertWithMetadata id eventType md = .ok () ∧
      validateStepU opts u f t = (.ok (), trv) ∧
      tr = [.rowUpdate f t] ++ trm ++ [.insertEvent id eventType md] ++ trv := by
  unfold updateTx at h
  rcases hi : u.update f t with e | id0 <;> rw [hi] at h
  · simp at h
  · simp only [bindTr_ok] at h
    rcases hm : metaStepU opts u f t with ⟨rm, trm⟩
    rcases rm with e | md <;> rw [hm] at h <;> simp at h
    rcases he : events.insertWithMetadata id0 eventType md with e | ⟨⟩ <;> rw [he] at h <;>
      simp at h
    rcases hv : validateStepU opts u f t with ⟨rv, trv⟩
    rcases rv with e | ⟨⟩ <;> rw [hv] at h <;> simp at h
    exact ⟨id0, md, trm, trv, rfl, rfl, he, rfl, by simp [h.symm]⟩

/-- The metadata step trace is `[]` or `[getMeta]`. -/
theorem metaStepI_trace {T : Type} (opts : Options) (ins : Inserter T) (id : T)
    (st : StatusVal) :
    (metaStepI opts ins id st).2 = [] ∨ (metaStepI opts ins id st).2 = [.getMeta] := by
  unfold metaStepI
  split
  · rcases ins.getMetadata with _ | g <;> simp
  · simp

theorem metaStepU_trace {T : Type} (opts : Options) (u : Updater T) (f t : StatusVal) :
    (metaStepU opts u f t).2 = [] ∨ (metaStepU opts u f t).2 = [.getMeta] := by
  unfold metaStepU
  split
  · rcases u.getMetadata with _ | g <;> simp
  · simp

/-- The validation step trace is `[]` or `[validate]`. -/
theorem validateStepI_trace {T : Type} (opts : Options) (ins : Inserter T) (id : T)
    (st : StatusVal) :
    (validateStepI opts ins id st).2 = [] ∨ (validateStepI opts ins id st).2 = [.validate] := by
  unfold validateStepI
  split
  · rcases ins.validate with _ | v <;> simp
  · simp

theorem validateStepU_trace {T : Type} (opts : Options) (u : Updater T) (f t : StatusVal) :
    (validateStepU opts u f t).2 = [] ∨ (validateStepU opts u f t).2 = [.validate] := by
  unfold validateStepU
  split
  · rcases u.validate with _ | v <;> simp
  · simp

/-- Concrete statuses, requests, sink and FSM used by witnesses. -/
def exA : StatusVal := ⟨1, 1, 1⟩

def exB : StatusVal := ⟨2, 2, 2⟩

def exC : StatusVal := ⟨3, 3, 3⟩

def exSink : EventSink Int := ⟨fun _ _ _ => .ok ()⟩

def exIns10 : Inserter Int := ⟨10, fun _ => .ok 7, none, none⟩

def exUpd20 : Updater Int := ⟨20, fun _ _ => .ok 7, none, none⟩

def exUpd99 : Updater Int := ⟨99, fun _ _ => .ok 7, none, none⟩

def exIns99 : Inserter Int := ⟨99, fun _ => .ok 7, none, none⟩

/-- A concrete FSM: insert state `exA` (bound type tag 10, next `exB`),
update state `exB` (bound type tag 20, terminal). -/
def exFSM : GenFSM Int :=
  { opts := ⟨false, false⟩
    events := exSink
    states := [(1, ⟨exA, 1, 10, false, [exB]⟩), (2, ⟨exB, 2, 20, false, []⟩)]
    insertStatus := some exA }

/-- An always-succeeding transaction oracle. -/
def exTxOk : TxOracle := ⟨.ok (), .ok ()⟩

/-- C1: `UpdateTx` checks, in order: unknown `to`, bound-type mismatch for
`to`, unknown `from`, `to` not in `from`'s next set; each failure returns
the corresponding error with an empty effect trace, so the updater's
row-update capability is never invoked and no event is inserted. -/
theorem updateTx_check_order {T : Type} (fsm : GenFSM T) (f t : StatusVal) (u : Updater T) :
    (lookupNode fsm.states t.ss = none →
      fsm.UpdateTx f t u = (.error .errUnknownStatus, [])) ∧
    (∀ tn, lookupNode fsm.states t.ss = some tn → tn.req ≠ u.tag →
      fsm.UpdateTx f t u = (.error .errInvalidType, [])) ∧
    (∀ tn, lookupNode fsm.states t.ss = some tn → tn.req = u.tag →
      lookupNode fsm.states f.ss = none →
      fsm.UpdateTx f t u = (.error .errUnknownStatus, [])) ∧
    (∀ tn fn, lookupNode fsm.states t.ss = some tn → tn.req = u.tag →
      lookupNode fsm.states f.ss = some fn → t ∉ fn.next →
      fsm.UpdateTx f t u = (.error .errInvalidStateTransition, [])) := by
  refine ⟨fun h => ?_, fun tn h1 h2 => ?_, fun tn h1 h2 h3 => ?_, fun tn fn h1 h2 h3 h4 => ?_⟩
  · simp [GenFSM.UpdateTx, h]
  · simp [GenFSM.UpdateTx, h1, h2]
  · simp [GenFSM.UpdateTx, h1, h2, h3]
  · simp [GenFSM.UpdateTx, h1, h2, h3, h4]

/-- C1 witness: the four failure modes observed on the concrete FSM. -/
theorem updateTx_check_order_witness :
    GenFSM.UpdateTx exFSM exB exC exUpd20 = (.error .errUnknownStatus, []) ∧
    GenFSM.UpdateTx exFSM exB exA exUpd99 = (.error .errInvalidType, []) ∧
    GenFSM.UpdateTx exFSM exC exB exUpd20 = (.error .errUnknownStatus, []) ∧
    GenFSM.UpdateTx exFSM exB exB exUpd20 = (.error .errInvalidStateTransition, []) := by
  refine ⟨(updateTx_check_order exFSM exB exC exUpd20).1 (by decide),
    (updateTx_check_order exFSM exB exA exUpd99).2.1 ⟨exA, 1, 10, false, [exB]⟩
      (by decide) (by decide),
    (updateTx_check_order exFSM exC exB exUpd20).2.2.1 ⟨exB, 2, 20, false, []⟩
      (by decide) (by decide) (by decide),
    (updateTx_check_order exFSM exB exB exUpd20).2.2.2 ⟨exB, 2, 20, false, []⟩
      ⟨exB, 2, 20, false, []⟩ (by decide) (by decide) (by decide) (by decide)⟩

/-- C10: an inserter whose dynamic type differs from the type bound to the
insert status fails with `InvalidType` and an empty trace (no row insert,
no event), for both `InsertTx` and the convenience `Insert`. -/
theorem insertTx_type_mismatch {T : Type} (fsm : GenFSM T) (st : StatusVal)
    (node : StateNode) (ins : Inserter T)
    (h1 : fsm.insertStatus = some st)
    (h2 : lookupNode fsm.states st.ss = some node)
    (h3 : node.req ≠ ins.tag) :
    fsm.InsertTx ins = (.error .errInvalidType, []) ∧
    (∀ db : TxOracle, db.begin = .ok () →
      fsm.Insert db ins = (.error .errInvalidType, [])) := by
  have hx : fsm.InsertTx ins = (.error .errInvalidType, []) := by
    simp [GenFSM.InsertTx, h1, h2, h3]
  refine ⟨hx, fun db hdb => ?_⟩
  simp [GenFSM.Insert, hdb, hx]

/-- C10 witness: a type-tag-99 inserter against the tag-10 insert node. -/
theorem insertTx_type_mismatch_witness :
    GenFSM.InsertTx exFSM exIns99 = (.error .errInvalidType, []) ∧
    GenFSM.Insert exFSM exTxOk exIns99 = (.error .errInvalidType, []) := by
  have h := insertTx_type_mismatch exFSM exA ⟨exA, 1, 10, false, [exB]⟩ exIns99
    (by decide) (by decide) (by decide)
  exact ⟨h.1, h.2 exTxOk rfl⟩

/-- A successful `GenFSM.InsertTx` went through the type check and `insertTx`. -/
theorem genInsertTx_ok_elim {T : Type} {fsm : GenFSM T} {ins : Inserter T} {id : T}
    {tr : List (Effect T)} (h : fsm.InsertTx ins = (.ok id, tr)) :
    ∃ st node, fsm.insertStatus = some st ∧ lookupNode fsm.states st.ss = some node ∧
      node.req = ins.tag ∧ insertTx st ins fsm.events node.t fsm.opts = (.ok id, tr) := by
  unfold GenFSM.InsertTx at h
  split at h
  · simp at h
  · rename_i st hs
    split at h
    · simp at h
    · rename_i node hn
      split at h
      · rename_i hreq
        exact ⟨st, node, hs, hn, hreq, h⟩
      · simp at h

/-- A successful `GenFSM.UpdateTx` went through all four checks and `updateTx`. -/
theorem genUpdateTx_ok_elim {T : Type} {fsm : GenFSM T} {f t : StatusVal} {u : Updater T}
    {tr : List (Effect T)} (h : fsm.UpdateTx f t u = (.ok (), tr)) :
    ∃ tn fn, lookupNode fsm.states t.ss = some tn ∧ tn.req = u.tag ∧
      lookupNode fsm.states f.ss = some fn ∧ t ∈ fn.next ∧
      updateTx f t u fsm.events tn.t fsm.opts = (.ok (), tr) := by
  unfold GenFSM.UpdateTx at h
  split at h
  · simp at h
  · rename_i tn ht
    split at h
    · rename_i hreq
      split at h
      · simp at h
      · rename_i fn hf
        split at h
        · rename_i hmem
          exact ⟨tn, fn, ht, hreq, hf, hmem, h⟩
        · simp at h
    · simp at h

/-- A successful convenience `Insert` is begin, a successful `InsertTx`, a
successful commit, then the notify call. -/
theorem genInsert_ok_elim {T : Type} {fsm : GenFSM T} {db : TxOracle} {ins : Inserter T}
    {id : T} {tr : List (Effect T)} (h : fsm.Insert db ins = (.ok id, tr)) :
    db.begin = .ok () ∧ db.commit = .ok () ∧
    ∃ tr0, fsm.InsertTx ins = (.ok id, tr0) ∧ tr = tr0 ++ [.commit, .notify] := by
  unfold GenFSM.Insert at h
  rcases hb : db.begin with e | ⟨⟩ <;> rw [hb] at h
  · simp at h
  · rcases hx : fsm.InsertTx ins with ⟨r0, tr0⟩
    rw [hx] at h
    rcases r0 with e | id0
    · simp at h
    · rcases hc : db.commit with e | ⟨⟩ <;> rw [hc] at h <;> simp at h
      obtain ⟨hid, htr⟩ := h
      subst hid
      exact ⟨rfl, rfl, tr0, rfl, htr.symm⟩

/-- A successful convenience `Update`, analogously. -/
theorem genUpdate_ok_elim {T : Type} {fsm : GenFSM T} {db : TxOracle} {f t : StatusVal}
    {u : Updater T} {tr : List (Effect T)} (h : fsm.Update db f t u = (.ok (), tr)) :
    db.begin = .ok () ∧ db.commit = .ok () ∧
    ∃ tr0, fsm.UpdateTx f t u = (.ok (), tr0) ∧ tr = tr0 ++ [.commit, .notify] := by
  unfold GenFSM.Update at h
  rcases hb : db.begin with e | ⟨⟩ <;> rw [hb] at h
  · simp at h
  · rcases hx : fsm.UpdateTx f t u with ⟨r0, tr0⟩
    rw [hx] at h
    rcases r0 with e | ⟨⟩
    · simp at h
    · rcases hc : db.commit with e | ⟨⟩ <;> rw [hc] at h <;> simp at h
      exact ⟨rfl, rfl, tr0, rfl, h.symm⟩

/-- A successful metadata step: trace `[getMeta]` exactly when the option
is on; with the option off the metadata stays nil. -/
theorem metaStepI_ok_elim {T : Type} {opts : Options} {ins : Inserter T} {id : T}
    {st : StatusVal} {md : Metadata} {trm : List (Effect T)}
    (h : metaStepI opts ins id st = (.ok md, trm)) :
    trm = (if opts.withMetadata then [Effect.getMeta] else []) ∧
    (opts.withMetadata = false → md = none) := by
  unfold metaStepI at h
  by_cases hw : opts.withMetadata <;> simp [hw] at h ⊢
  · rcases hg : ins.getMetadata with _ | g <;> rw [hg] at h <;> simp at h
    exact h.2.symm
  · exact ⟨h.2, h.1.symm⟩

theorem metaStepU_ok_elim {T : Type} {opts : Options} {u : Updater T} {f t : StatusVal}
    {md : Metadata} {trm : List (Effect T)}
    (h : metaStepU opts u f t = (.ok md, trm)) :
    trm = (if opts.withMetadata then [Effect.getMeta] else []) ∧
    (opts.withMetadata = false → md = none) := by
  unfold metaStepU at h
  by_cases hw : opts.withMetadata <;> simp [hw] at h ⊢
  · rcases hg : u.getMetadata with _ | g <;> rw [hg] at h <;> simp at h
    exact h.2.symm
  · exact ⟨h.2, h.1.symm⟩

theorem validateStepI_ok_elim {T : Type} {opts : Options} {ins : Inserter T} {id : T}
    {st : StatusVal} {trv : List (Effect T)}
    (h : validateStepI opts ins id st = (.ok (), trv)) :
    trv = (if opts.withValidation then [Effect.validate] else []) := by
  unfold validateStepI at h
  by_cases hw : opts.withValidation
  · simp [hw] at h ⊢
    rcases hg : ins.validate with _ | v <;> rw [hg] at h <;> simp at h
    exact h.2.symm
  · simp [hw] at h ⊢
    exact h

theorem validateStepU_ok_elim {T : Type} {opts : Options} {u : Updater T} {f t : StatusVal}
    {trv : List (Effect T)}
    (h : validateStepU opts u f t = (.ok (), trv)) :
    trv = (if opts.withValidation then [Effect.validate] else []) := by
  unfold validateStepU at h
  by_cases hw : opts.withValidation
  · simp [hw] at h ⊢
    rcases hg : u.validate with _ | v <;> rw [hg] at h <;> simp at h
    exact h.2.symm
  · simp [hw] at h ⊢
    exact h

/-- C9: with metadata (resp. validation) enabled, a request value lacking
the corresponding capability makes the operation fail with `InvalidType`
instead of silently skipping the step — for inserts and updates.  (The
row mutation has already run inside the still-uncommitted transaction;
the operation as a whole errors out.) -/
theorem missing_capability_invalid_type {T : Type} (fsm : GenFSM T) :
    (∀ (ins : Inserter T) st node id,
      fsm.insertStatus = some st → lookupNode fsm.states st.ss = some node →
      node.req = ins.tag → fsm.opts.withMetadata = true → ins.getMetadata = none →
      ins.insert st = .ok id →
      fsm.InsertTx ins = (.error .errInvalidType, [.rowInsert st])) ∧
    (∀ (ins : Inserter T) st node id md trm,
      fsm.insertStatus = some st → lookupNode fsm.states st.ss = some node →
      node.req = ins.tag → fsm.opts.withValidation = true → ins.validate = none →
      ins.insert st = .ok id → metaStepI fsm.opts ins id st = (.ok md, trm) →
      fsm.events.insertWithMetadata id node.t md = .ok () →
      fsm.InsertTx ins =
        (.error .errInvalidType, [.rowInsert st] ++ trm ++ [.insertEvent id node.t md])) ∧
    (∀ (u : Updater T) f t tn fn id,
      lookupNode fsm.states t.ss = some tn → tn.req = u.tag →
      lookupNode fsm.states f.ss = some fn → t ∈ fn.next →
      fsm.opts.withMetadata = true → u.getMetadata = none →
      u.update f t = .ok id →
      fsm.UpdateTx f t u = (.error .errInvalidType, [.rowUpdate f t])) ∧
    (∀ (u : Updater T) f t tn fn id md trm,
      lookupNode fsm.states t.ss = some tn → tn.req = u.tag →
      lookupNode fsm.states f.ss = some fn → t ∈ fn.next →
      fsm.opts.withValidation = true → u.validate = none →
      u.update f t = .ok id → metaStepU fsm.opts u f t = (.ok md, trm) →
      fsm.events.insertWithMetadata id tn.t md = .ok () →
      fsm.UpdateTx f t u =
        (.error .errInvalidType, [.rowUpdate f t] ++ trm ++ [.insertEvent id tn.t md])) := by
  refine ⟨fun ins st node id h1 h2 h3 hw hc hrow => ?_,
    fun ins st node id md trm h1 h2 h3 hw hc hrow hm he => ?_,
    fun u f t tn fn id h1 h2 h3 h4 hw hc hrow => ?_,
    fun u f t tn fn id md trm h1 h2 h3 h4 hw hc hrow hm he => ?_⟩
  · simp [GenFSM.InsertTx, h1, h2, h3, insertTx, hrow, metaStepI, hw, hc]
  · simp [GenFSM.InsertTx, h1, h2, h3, insertTx, hrow, hm, he, validateStepI, hw, hc]
  · simp [GenFSM.UpdateTx, h1, h2, h3, h4, updateTx, hrow, metaStepU, hw, hc]
  · simp [GenFSM.UpdateTx, h1, h2, h3, h4, updateTx, hrow, hm, he, validateStepU, hw, hc]

/-- An FSM with both options enabled and capability-free request values,
for the C9 witness. -/
def exFSMOpts : GenFSM Int :=
  { opts := ⟨true, true⟩
    events := exSink
    states := [(1, ⟨exA, 1, 10, false, [exB]⟩), (2, ⟨exB, 2, 20, false, []⟩)]
    insertStatus := some exA }

/-- An inserter with a metadata capability but no validation capability. -/
def exInsMeta : Inserter Int := ⟨10, fun _ => .ok 7, some (fun _ _ => .ok (some [1])), none⟩

/-- An updater with a metadata capability but no validation capability. -/
def exUpdMeta : Updater Int := ⟨20, fun _ _ => .ok 7, some (fun _ _ => .ok (some [2])), none⟩

/-- C9 witness: missing metadata and missing validation capabilities each
produce `InvalidType` on the concrete FSM with both options enabled. -/
theorem missing_capability_invalid_type_witness :
    GenFSM.InsertTx exFSMOpts exIns10 = (.error .errInvalidType, [.rowInsert exA]) ∧
    GenFSM.InsertTx exFSMOpts exInsMeta =
      (.error .errInvalidType,
        [.rowInsert exA] ++ [.getMeta] ++ [.insertEvent 7 1 (some [1])]) ∧
    GenFSM.UpdateTx exFSMOpts exA exB exUpd20 =
      (.error .errInvalidType, [.rowUpdate exA exB]) ∧
    GenFSM.UpdateTx exFSMOpts exA exB exUpdMeta =
      (.error .errInvalidType,
        [.rowUpdate exA exB] ++ [.getMeta] ++ [.insertEvent 7 2 (some [2])]) := by
  have h := missing_capability_invalid_type exFSMOpts
  refine ⟨h.1 exIns10 exA ⟨exA, 1, 10, false, [exB]⟩ 7 rfl (by decide) rfl rfl rfl rfl,
    h.2.1 exInsMeta exA ⟨exA, 1, 10, false, [exB]⟩ 7 (some [1]) [.getMeta] rfl (by decide)
      rfl rfl rfl rfl rfl rfl,
    h.2.2.1 exUpd20 exA exB ⟨exB, 2, 20, false, []⟩ ⟨exA, 1, 10, false, [exB]⟩ 7
      (by decide) rfl (by decide) (by decide) rfl rfl rfl,
    h.2.2.2 exUpdMeta exA exB ⟨exB, 2, 20, false, []⟩ ⟨exA, 1, 10, false, [exB]⟩ 7
      (some [2]) [.getMeta] (by decide) rfl (by decide) (by decide) rfl rfl rfl rfl rfl⟩


/-- Number of staged event insertions in a trace. -/
def countEvents {T : Type} (tr : List (Effect T)) : Nat :=
  (tr.filter fun e => match e with | .insertEvent _ _ _ => true | _ => false).length

@[simp]
theorem countEvents_nil {T : Type} : countEvents ([] : List (Effect T)) = 0 := rfl

@[simp]
theorem countEvents_append {T : Type} (a b : List (Effect T)) :
    countEvents (a ++ b) = countEvents a + countEvents b := by
  simp [countEvents, List.filter_append]

@[simp]
theorem countEvents_cons_rowInsert {T : Type} (st : StatusVal) (tr : List (Effect T)) :
    countEvents (Effect.rowInsert st :: tr) = countEvents tr := by
  simp [countEvents]

@[simp]
theorem countEvents_cons_rowUpdate {T : Type} (f t : StatusVal) (tr : List (Effect T)) :
    countEvents (Effect.rowUpdate f t :: tr) = countEvents tr := by
  simp [countEvents]

@[simp]
theorem countEvents_cons_getMeta {T : Type} (tr : List (Effect T)) :
    countEvents (Effect.getMeta :: tr) = countEvents tr := by
  simp [countEvents]

@[simp]
theorem countEvents_cons_validate {T : Type} (tr : List (Effect T)) :
    countEvents (Effect.validate :: tr) = countEvents tr := by
  simp [countEvents]

@[simp]
theorem countEvents_cons_commit {T : Type} (tr : List (Effect T)) :
    countEvents (Effect.commit :: tr) = countEvents tr := by
  simp [countEvents]

@[simp]
theorem countEvents_cons_notify {T : Type} (tr : List (Effect T)) :
    countEvents (Effect.notify :: tr) = countEvents tr := by
  simp [countEvents]

@[simp]
theorem countEvents_cons_event {T : Type} (id : T) (ty : Int) (md : Metadata)
    (tr : List (Effect T)) :
    countEvents (Effect.insertEvent id ty md :: tr) = countEvents tr + 1 := by
  simp [countEvents, Nat.add_comm]

/-- C2: every successful convenience `Insert` stages exactly one event in
the transaction, carrying the new id, the insert node's event-type tag,
and nil metadata when the metadata option is off; every successful
`Update` stages exactly one event carrying the id returned by the updater
and the destination node's tag; a failing event emission fails the whole
operation and the transaction is never committed. -/
theorem successful_op_single_event {T : Type} (fsm : GenFSM T) :
    (∀ (db : TxOracle) (ins : Inserter T) st node id tr,
      fsm.insertStatus = some st → lookupNode fsm.states st.ss = some node →
      fsm.Insert db ins = (.ok id, tr) →
      countEvents tr = 1 ∧
      ∃ md, Effect.insertEvent id node.t md ∈ tr ∧
        (fsm.opts.withMetadata = false → md = none)) ∧
    (∀ (db : TxOracle) (u : Updater T) f t tn tr,
      lookupNode fsm.states t.ss = some tn →
      fsm.Update db f t u = (.ok (), tr) →
      countEvents tr = 1 ∧
      ∃ id md, u.update f t = .ok id ∧ Effect.insertEvent id tn.t md ∈ tr ∧
        (fsm.opts.withMetadata = false → md = none)) ∧
    (∀ (db : TxOracle) (ins : Inserter T) st node id md trm e,
      fsm.insertStatus = some st → lookupNode fsm.states st.ss = some node →
      node.req = ins.tag → db.begin = .ok () →
      ins.insert st = .ok id → metaStepI fsm.opts ins id st = (.ok md, trm) →
      fsm.events.insertWithMetadata id node.t md = .error e →
      fsm.Insert db ins =
        (.error e, [.rowInsert st] ++ trm ++ [.insertEvent id node.t md]) ∧
      Effect.commit ∉
        ([Effect.rowInsert st] ++ trm ++ [Effect.insertEvent id node.t md] : List (Effect T))) ∧
    (∀ (db : TxOracle) (u : Updater T) f t tn fn id md trm e,
      lookupNode fsm.states t.ss = some tn → tn.req = u.tag →
      lookupNode fsm.states f.ss = some fn → t ∈ fn.next → db.begin = .ok () →
      u.update f t = .ok id → metaStepU fsm.opts u f t = (.ok md, trm) →
      fsm.events.insertWithMetadata id tn.t md = .error e →
      fsm.Update db f t u =
        (.error e, [.rowUpdate f t] ++ trm ++ [.insertEvent id tn.t md]) ∧
      Effect.commit ∉
        ([Effect.rowUpdate f t] ++ trm ++ [Effect.insertEvent id tn.t md] : List (Effect T))) := by
  refine ⟨fun db ins st node id tr h1 h2 h3 => ?_,
    fun db u f t tn tr h1 h3 => ?_,
    fun db ins st node id md trm e h1 h2 h3 hdb hrow hm he => ?_,
    fun db u f t tn fn id md trm e h1 h2 h3 h4 hdb hrow hm he => ?_⟩
  · obtain ⟨hb, hc, tr0, hx, htr⟩ := genInsert_ok_elim h3
    obtain ⟨st2, node2, hs2, hn2, hreq2, hrun⟩ := genInsertTx_ok_elim hx
    rw [h1] at hs2
    injection hs2 with hs2
    subst hs2
    rw [h2] at hn2
    injection hn2 with hn2
    subst hn2
    obtain ⟨hrow, md, trm, trv, hm, he, hv, hshape⟩ := insertTx_ok_elim hrun
    obtain ⟨htrm, hmd⟩ := metaStepI_ok_elim hm
    have htrv := validateStepI_ok_elim hv
    subst htr hshape htrm htrv
    constructor
    · by_cases hw : fsm.opts.withMetadata <;> by_cases hv2 : fsm.opts.withValidation <;>
        simp [hw, hv2]
    · exact ⟨md, by simp, hmd⟩
  · obtain ⟨hb, hc, tr0, hx, htr⟩ := genUpdate_ok_elim h3
    obtain ⟨tn2, fn2, ht2, hreq2, hf2, hmem2, hrun⟩ := genUpdateTx_ok_elim hx
    rw [h1] at ht2
    injection ht2 with ht2
    subst ht2
    obtain ⟨id, md, trm, trv, hrow, hm, he, hv, hshape⟩ := updateTx_ok_elim hrun
    obtain ⟨htrm, hmd⟩ := metaStepU_ok_elim hm
    have htrv := validateStepU_ok_elim hv
    subst htr hshape htrm htrv
    refine ⟨?_, id, md, hrow, by simp, hmd⟩
    by_cases hw : fsm.opts.withMetadata <;> by_cases hv2 : fsm.opts.withValidation <;>
      simp [hw, hv2]
  · constructor
    · simp [GenFSM.Insert, hdb, GenFSM.InsertTx, h1, h2, h3, insertTx, hrow, hm, he]
    · obtain h | h := metaStepI_trace fsm.opts ins id st <;> rw [hm] at h <;> simp at h <;>
        subst h <;> simp
  · constructor
    · simp [GenFSM.Update, hdb, GenFSM.UpdateTx, h1, h2, h3, h4, updateTx, hrow, hm, he]
    · obtain h | h := metaStepU_trace fsm.opts u f t <;> rw [hm] at h <;> simp at h <;>
        subst h <;> simp

/-- C2 witness: concrete successful insert and update runs stage exactly
one event each, with the expected payloads. -/
theorem successful_op_single_event_witness :
    countEvents ([.rowInsert exA, .insertEvent 7 1 none, .commit, .notify] :
      List (Effect Int)) = 1 ∧
    (∃ md, Effect.insertEvent (7 : Int) 1 md ∈
        ([.rowInsert exA, .insertEvent 7 1 none, .commit, .notify] : List (Effect Int)) ∧
      (exFSM.opts.withMetadata = false → md = none)) ∧
    countEvents ([.rowUpdate exA exB, .insertEvent 7 2 none, .commit, .notify] :
      List (Effect Int)) = 1 := by
  have h1 := (successful_op_single_event exFSM).1 exTxOk exIns10 exA
    ⟨exA, 1, 10, false, [exB]⟩ 7
    [.rowInsert exA, .insertEvent 7 1 none, .commit, .notify] rfl rfl rfl
  have h2 := (successful_op_single_event exFSM).2.1 exTxOk exUpd20 exA exB
    ⟨exB, 2, 20, false, []⟩
    [.rowUpdate exA exB, .insertEvent 7 2 none, .commit, .notify] rfl rfl
  exact ⟨h1.1, h1.2, h2.1⟩

/-- C4: within one successful convenience call the trace is exactly row
mutation, metadata derivation (iff enabled), event emission, validation
(iff enabled), commit, then notify; and when validation fails, the event
effect is already in the (uncommitted) transaction's trace before the
validate effect. -/
theorem op_effect_order {T : Type} (fsm : GenFSM T) :
    (∀ (db : TxOracle) (ins : Inserter T) st node id tr,
      fsm.insertStatus = some st → lookupNode fsm.states st.ss = some node →
      fsm.Insert db ins = (.ok id, tr) →
      ∃ md, tr = [Effect.rowInsert st]
          ++ (if fsm.opts.withMetadata then [Effect.getMeta] else [])
          ++ [Effect.insertEvent id node.t md]
          ++ (if fsm.opts.withValidation then [Effect.validate] else [])
          ++ [Effect.commit, Effect.notify]) ∧
    (∀ (db : TxOracle) (u : Updater T) f t tn tr,
      lookupNode fsm.states t.ss = some tn →
      fsm.Update db f t u = (.ok (), tr) →
      ∃ id md, u.update f t = .ok id ∧ tr = [Effect.rowUpdate f t]
          ++ (if fsm.opts.withMetadata then [Effect.getMeta] else [])
          ++ [Effect.insertEvent id tn.t md]
          ++ (if fsm.opts.withValidation then [Effect.validate] else [])
          ++ [Effect.commit, Effect.notify]) ∧
    (∀ (ins : Inserter T) st node id md trm v e,
      fsm.insertStatus = some st → lookupNode fsm.states st.ss = some node →
      node.req = ins.tag → ins.insert st = .ok id →
      metaStepI fsm.opts ins id st = (.ok md, trm) →
      fsm.events.insertWithMetadata id node.t md = .ok () →
      fsm.opts.withValidation = true → ins.validate = some v → v id st = .error e →
      fsm.InsertTx ins = (.error e,
        [Effect.rowInsert st] ++ trm ++ [Effect.insertEvent id node.t md]
          ++ [Effect.validate])) ∧
    (∀ (u : Updater T) f t tn fn id md trm v e,
      lookupNode fsm.states t.ss = some tn → tn.req = u.tag →
      lookupNode fsm.states f.ss = some fn → t ∈ fn.next →
      u.update f t = .ok id → metaStepU fsm.opts u f t = (.ok md, trm) →
      fsm.events.insertWithMetadata id tn.t md = .ok () →
      fsm.opts.withValidation = true → u.validate = some v → v f t = .error e →
      fsm.UpdateTx f t u = (.error e,
        [Effect.rowUpdate f t] ++ trm ++ [Effect.insertEvent id tn.t md]
          ++ [Effect.validate])) := by
  refine ⟨fun db ins st node id tr h1 h2 h3 => ?_,
    fun db u f t tn tr h1 h3 => ?_,
    fun ins st node id md trm v e h1 h2 h3 hrow hm he hval hc hve => ?_,
    fun u f t tn fn id md trm v e h1 h2 h3 h4 hrow hm he hval hc hve => ?_⟩
  · obtain ⟨hb, hcm, tr0, hx, htr⟩ := genInsert_ok_elim h3
    obtain ⟨st2, node2, hs2, hn2, hreq2, hrun⟩ := genInsertTx_ok_elim hx
    rw [h1] at hs2
    injection hs2 with hs2
    subst hs2
    rw [h2] at hn2
    injection hn2 with hn2
    subst hn2
    obtain ⟨hrow, md, trm, trv, hm, he, hv, hshape⟩ := insertTx_ok_elim hrun
    obtain ⟨htrm, hmd⟩ := metaStepI_ok_elim hm
    have htrv := validateStepI_ok_elim hv
    subst htr hshape htrm htrv
    exact ⟨md, by simp⟩
  · obtain ⟨hb, hcm, tr0, hx, htr⟩ := genUpdate_ok_elim h3
    obtain ⟨tn2, fn2, ht2, hreq2, hf2, hmem2, hrun⟩ := genUpdateTx_ok_elim hx
    rw [h1] at ht2
    injection ht2 with ht2
    subst ht2
    obtain ⟨id, md, trm, trv, hrow, hm, he, hv, hshape⟩ := updateTx_ok_elim hrun
    obtain ⟨htrm, hmd⟩ := metaStepU_ok_elim hm
    have htrv := validateStepU_ok_elim hv
    subst htr hshape htrm htrv
    exact ⟨id, md, hrow, by simp⟩
  · simp [GenFSM.InsertTx, h1, h2, h3, insertTx, hrow, hm, he, validateStepI, hval, hc, hve]
  · simp [GenFSM.UpdateTx, h1, h2, h3, h4, updateTx, hrow, hm, he, validateStepU, hval, hc, hve]

/-- A request type implementing every capability, for witnesses. -/
def exInsFull : Inserter Int :=
  ⟨10, fun _ => .ok 7, some (fun _ _ => .ok (some [1])), some (fun _ _ => .ok ())⟩

def exUpdFull : Updater Int :=
  ⟨20, fun _ _ => .ok 7, some (fun _ _ => .ok (some [2])), some (fun _ _ => .ok ())⟩

/-- C4 witness: the full effect order observed on concrete runs with both
options enabled. -/
theorem op_effect_order_witness :
    (∃ md, ([.rowInsert exA, .getMeta, .insertEvent 7 1 (some [1]), .validate,
        .commit, .notify] : List (Effect Int)) =
      [Effect.rowInsert exA]
        ++ (if exFSMOpts.opts.withMetadata then [Effect.getMeta] else [])
        ++ [Effect.insertEvent 7 1 md]
        ++ (if exFSMOpts.opts.withValidation then [Effect.validate] else [])
        ++ [Effect.commit, Effect.notify]) ∧
    (∃ id md, exUpdFull.update exA exB = .ok id ∧
      ([.rowUpdate exA exB, .getMeta, .insertEvent 7 2 (some [2]), .validate,
        .commit, .notify] : List (Effect Int)) =
      [Effect.rowUpdate exA exB]
        ++ (if exFSMOpts.opts.withMetadata then [Effect.getMeta] else [])
        ++ [Effect.insertEvent id 2 md]
        ++ (if exFSMOpts.opts.withValidation then [Effect.validate] else [])
        ++ [Effect.commit, Effect.notify]) := by
  refine ⟨(op_effect_order exFSMOpts).1 exTxOk exInsFull exA ⟨exA, 1, 10, false, [exB]⟩ 7
    [.rowInsert exA, .getMeta, .insertEvent 7 1 (some [1]), .validate, .commit, .notify]
    rfl rfl rfl, ?_⟩
  have h := (op_effect_order exFSMOpts).2.1 exTxOk exUpdFull exA exB
    ⟨exB, 2, 20, false, []⟩
    [.rowUpdate exA exB, .getMeta, .insertEvent 7 2 (some [2]), .validate, .commit, .notify]
    rfl rfl
  exact h

/-- The `insertTx` never emits the commit or notify effects. -/
theorem insertTx_mem {T : Type} (st : StatusVal) (ins : Inserter T) (events : EventSink T)
    (eventType : Int) (opts : Options) :
    Effect.commit ∉ (insertTx st ins events eventType opts).2 ∧
    Effect.notify ∉ (insertTx st ins events eventType opts).2 := by
  unfold insertTx
  rcases ins.insert st with e | id
  · simp
  · simp only [bindTr_ok]
    have htm := metaStepI_trace opts ins id st
    rcases hm : metaStepI opts ins id st with ⟨rm, trm⟩
    rw [hm] at htm
    simp only at htm
    rcases rm with e | md
    · simp only [bindTr_error]
      rcases htm with h | h <;> subst h <;> simp
    · simp only [bindTr_ok]
      rcases events.insertWithMetadata id eventType md with e | ⟨⟩
      · simp only [bindTr_error]
        rcases htm with h | h <;> subst h <;> simp
      · simp only [bindTr_ok]
        have htv := validateStepI_trace opts ins id st
        rcases hv : validateStepI opts ins id st with ⟨rv, trv⟩
        rw [hv] at htv
        simp only at htv
        rcases rv with e | ⟨⟩ <;> simp only [bindTr_error, bindTr_ok] <;>
          rcases htm with h | h <;> rcases htv with h2 | h2 <;> subst h <;> subst h2 <;> simp

/-- The `updateTx` never emits the commit or notify effects. -/
theorem updateTx_mem {T : Type} (f t : StatusVal) (u : Updater T) (events : EventSink T)
    (eventType : Int) (opts : Options) :
    Effect.commit ∉ (updateTx f t u events eventType opts).2 ∧
    Effect.notify ∉ (updateTx f t u events eventType opts).2 := by
  unfold updateTx
  rcases u.update f t with e | id
  · simp
  · simp only [bindTr_ok]
    have htm := metaStepU_trace opts u f t
    rcases hm : metaStepU opts u f t with ⟨rm, trm⟩
    rw [hm] at htm
    simp only at htm
    rcases rm with e | md
    · simp only [bindTr_error]
      rcases htm with h | h <;> subst h <;> simp
    · simp only [bindTr_ok]
      rcases events.insertWithMetadata id eventType md with e | ⟨⟩
      · simp only [bindTr_error]
        rcases htm with h | h <;> subst h <;> simp
      · simp only [bindTr_ok]
        have htv := validateStepU_trace opts u f t
        rcases hv : validateStepU opts u f t with ⟨rv, trv⟩
        rw [hv] at htv
        simp only at htv
        rcases rv with e | ⟨⟩ <;> simp only [bindTr_error, bindTr_ok] <;>
          rcases htm with h | h <;> rcases htv with h2 | h2 <;> subst h <;> subst h2 <;> simp

/-- The `GenFSM.InsertTx` never emits commit or notify. -/
theorem genInsertTx_mem {T : Type} (fsm : GenFSM T) (ins : Inserter T) :
    Effect.commit ∉ (fsm.InsertTx ins).2 ∧ Effect.notify ∉ (fsm.InsertTx ins).2 := by
  rcases hs : fsm.insertStatus with _ | st
  · simp [GenFSM.InsertTx, hs]
  · rcases hn : lookupNode fsm.states st.ss with _ | node
    · simp [GenFSM.InsertTx, hs, hn]
    · by_cases h : node.req = ins.tag
      · have hx := insertTx_mem st ins fsm.events node.t fsm.opts
        simp only [GenFSM.InsertTx, hs, hn, if_pos h]
        exact hx
      · simp [GenFSM.InsertTx, hs, hn, h]

/-- The `GenFSM.UpdateTx` never emits commit or notify. -/
theorem genUpdateTx_mem {T : Type} (fsm : GenFSM T) (f t : StatusVal) (u : Updater T) :
    Effect.commit ∉ (fsm.UpdateTx f t u).2 ∧ Effect.notify ∉ (fsm.UpdateTx f t u).2 := by
  rcases ht : lookupNode fsm.states t.ss with _ | tn
  · simp [GenFSM.UpdateTx, ht]
  · by_cases hreq : tn.req = u.tag
    · rcases hf : lookupNode fsm.states f.ss with _ | fn
      · simp [GenFSM.UpdateTx, ht, hreq, hf]
      · by_cases hmem : t ∈ fn.next
        · have hx := updateTx_mem f t u fsm.events tn.t fsm.opts
          simp only [GenFSM.UpdateTx, ht, hf, if_pos hreq, if_pos hmem]
          exact hx
        · simp [GenFSM.UpdateTx, ht, hreq, hf, hmem]
    · simp [GenFSM.UpdateTx, ht, hreq]

/-- Full case analysis of the convenience `Insert` wrapper. -/
theorem genInsert_cases {T : Type} (fsm : GenFSM T) (db : TxOracle) (ins : Inserter T) :
    (∃ e, db.begin = .error e ∧ fsm.Insert db ins = (.error e, [])) ∨
    (∃ e, (fsm.InsertTx ins).1 = .error e ∧
      fsm.Insert db ins = (.error e, (fsm.InsertTx ins).2)) ∨
    (∃ id e, (fsm.InsertTx ins).1 = .ok id ∧ db.commit = .error e ∧
      fsm.Insert db ins = (.error e, (fsm.InsertTx ins).2)) ∨
    (∃ id, (fsm.InsertTx ins).1 = .ok id ∧ db.commit = .ok () ∧
      fsm.Insert db ins =
        (.ok id, (fsm.InsertTx ins).2 ++ [Effect.commit, Effect.notify])) := by
  rcases hb : db.begin with e | ⟨⟩
  · exact Or.inl ⟨e, rfl, by simp [GenFSM.Insert, hb]⟩
  · rcases hx : fsm.InsertTx ins with ⟨r0, tr0⟩
    rcases r0 with e | id
    · refine Or.inr (Or.inl ⟨e, rfl, ?_⟩)
      simp [GenFSM.Insert, hb, hx]
    · rcases hc : db.commit with e | ⟨⟩
      · refine Or.inr (Or.inr (Or.inl ⟨id, e, rfl, rfl, ?_⟩))
        simp [GenFSM.Insert, hb, hx, hc]
      · refine Or.inr (Or.inr (Or.inr ⟨id, rfl, rfl, ?_⟩))
        simp [GenFSM.Insert, hb, hx, hc]

/-- Full case analysis of the convenience `Update` wrapper. -/
theorem genUpdate_cases {T : Type} (fsm : GenFSM T) (db : TxOracle) (f t : StatusVal)
    (u : Updater T) :
    (∃ e, db.begin = .error e ∧ fsm.Update db f t u = (.error e, [])) ∨
    (∃ e, (fsm.UpdateTx f t u).1 = .error e ∧
      fsm.Update db f t u = (.error e, (fsm.UpdateTx f t u).2)) ∨
    (∃ e, (fsm.UpdateTx f t u).1 = .ok () ∧ db.commit = .error e ∧
      fsm.Update db f t u = (.error e, (fsm.UpdateTx f t u).2)) ∨
    ((fsm.UpdateTx f t u).1 = .ok () ∧ db.commit = .ok () ∧
      fsm.Update db f t u =
        (.ok (), (fsm.UpdateTx f t u).2 ++ [Effect.commit, Effect.notify])) := by
  rcases hb : db.begin with e | ⟨⟩
  · exact Or.inl ⟨e, rfl, by simp [GenFSM.Update, hb]⟩
  · rcases hx : fsm.UpdateTx f t u with ⟨r0, tr0⟩
    rcases r0 with e | ⟨⟩
    · refine Or.inr (Or.inl ⟨e, rfl, ?_⟩)
      simp [GenFSM.Update, hb, hx]
    · rcases hc : db.commit with e | ⟨⟩
      · refine Or.inr (Or.inr (Or.inl ⟨e, rfl, rfl, ?_⟩))
        simp [GenFSM.Update, hb, hx, hc]
      · refine Or.inr (Or.inr (Or.inr ⟨rfl, rfl, ?_⟩))
        simp [GenFSM.Update, hb, hx, hc]

/-- Splitting `tr0 ++ [commit, notify]` at a notify occurrence with
`notify ∉ tr0` pins the split point. -/
theorem notify_split {T : Type} {tr0 : List (Effect T)} :
    ∀ {l1 l2 : List (Effect T)}, Effect.notify ∉ tr0 →
    tr0 ++ [Effect.commit, Effect.notify] = l1 ++ Effect.notify :: l2 →
    l1 = tr0 ++ [Effect.commit] := by
  induction tr0 with
  | nil =>
    intro l1 l2 _ h
    cases l1 with
    | nil => simp at h
    | cons a l1x =>
      simp only [List.nil_append, List.cons_append, List.cons.injEq] at h
      obtain ⟨ha, h2⟩ := h
      cases l1x with
      | nil => simp_all
      | cons b l1y =>
        simp only [List.cons_append, List.cons.injEq] at h2
        obtain ⟨hb, h3⟩ := h2
        exact absurd h3 (by simp)
  | cons a tr0x ih =>
    intro l1 l2 hn h
    simp only [List.mem_cons, not_or] at hn
    cases l1 with
    | nil =>
      simp only [List.cons_append, List.nil_append, List.cons.injEq] at h
      exact absurd h.1.symm hn.1
    | cons b l1x =>
      simp only [List.cons_append, List.cons.injEq] at h
      obtain ⟨hb, h2⟩ := h
      subst hb
      have := ih hn.2 h2
      simp [this]

/-- C3: for the convenience variants, a notify effect occurs only
immediately after a successful commit; when commit errors, or any earlier
step fails, the notifier is never invoked. -/
theorem notifier_after_commit {T : Type} (fsm : GenFSM T) (db : TxOracle)
    (ins : Inserter T) (f t : StatusVal) (u : Updater T) :
    (∀ e, db.commit = .error e →
      Effect.notify ∉ (fsm.Insert db ins).2 ∧
      Effect.notify ∉ (fsm.Update db f t u).2) ∧
    (∀ e, (fsm.Insert db ins).1 = .error e → Effect.notify ∉ (fsm.Insert db ins).2) ∧
    (∀ e, (fsm.Update db f t u).1 = .error e → Effect.notify ∉ (fsm.Update db f t u).2) ∧
    (∀ l1 l2, (fsm.Insert db ins).2 = l1 ++ Effect.notify :: l2 →
      db.commit = .ok () ∧ l1.getLast? = some Effect.commit) ∧
    (∀ l1 l2, (fsm.Update db f t u).2 = l1 ++ Effect.notify :: l2 →
      db.commit = .ok () ∧ l1.getLast? = some Effect.commit) := by
  have hmi := genInsertTx_mem fsm ins
  have hmu := genUpdateTx_mem fsm f t u
  refine ⟨fun e hc => ⟨?_, ?_⟩, fun e hr => ?_, fun e hr => ?_,
    fun l1 l2 hsplit => ?_, fun l1 l2 hsplit => ?_⟩
  · rcases genInsert_cases fsm db ins with ⟨e2, hb, hi⟩ | ⟨e2, hx, hi⟩ |
      ⟨id, e2, hx, hc2, hi⟩ | ⟨id, hx, hc2, hi⟩
    · simp [hi]
    · rw [hi]
      exact hmi.2
    · rw [hi]
      exact hmi.2
    · rw [hc2] at hc
      simp at hc
  · rcases genUpdate_cases fsm db f t u with ⟨e2, hb, hi⟩ | ⟨e2, hx, hi⟩ |
      ⟨e2, hx, hc2, hi⟩ | ⟨hx, hc2, hi⟩
    · simp [hi]
    · rw [hi]
      exact hmu.2
    · rw [hi]
      exact hmu.2
    · rw [hc2] at hc
      simp at hc
  · rcases genInsert_cases fsm db ins with ⟨e2, hb, hi⟩ | ⟨e2, hx, hi⟩ |
      ⟨id, e2, hx, hc2, hi⟩ | ⟨id, hx, hc2, hi⟩
    · simp [hi]
    · rw [hi]
      exact hmi.2
    · rw [hi]
      exact hmi.2
    · rw [hi] at hr
      simp at hr
  · rcases genUpdate_cases fsm db f t u with ⟨e2, hb, hi⟩ | ⟨e2, hx, hi⟩ |
      ⟨e2, hx, hc2, hi⟩ | ⟨hx, hc2, hi⟩
    · simp [hi]
    · rw [hi]
      exact hmu.2
    · rw [hi]
      exact hmu.2
    · rw [hi] at hr
      simp at hr
  · rcases genInsert_cases fsm db ins with ⟨e2, hb, hi⟩ | ⟨e2, hx, hi⟩ |
      ⟨id, e2, hx, hc2, hi⟩ | ⟨id, hx, hc2, hi⟩
    · rw [hi] at hsplit
      exact absurd hsplit.symm (by simp)
    · rw [hi] at hsplit
      exact absurd (hsplit ▸ (by simp : Effect.notify ∈ l1 ++ Effect.notify :: l2)) hmi.2
    · rw [hi] at hsplit
      exact absurd (hsplit ▸ (by simp : Effect.notify ∈ l1 ++ Effect.notify :: l2)) hmi.2
    · rw [hi] at hsplit
      have hl1 := notify_split hmi.2 hsplit
      exact ⟨hc2, by simp [hl1]⟩
  · rcases genUpdate_cases fsm db f t u with ⟨e2, hb, hi⟩ | ⟨e2, hx, hi⟩ |
      ⟨e2, hx, hc2, hi⟩ | ⟨hx, hc2, hi⟩
    · rw [hi] at hsplit
      exact absurd hsplit.symm (by simp)
    · rw [hi] at hsplit
      exact absurd (hsplit ▸ (by simp : Effect.notify ∈ l1 ++ Effect.notify :: l2)) hmu.2
    · rw [hi] at hsplit
      exact absurd (hsplit ▸ (by simp : Effect.notify ∈ l1 ++ Effect.notify :: l2)) hmu.2
    · rw [hi] at hsplit
      have hl1 := notify_split hmu.2 hsplit
      exact ⟨hc2, by simp [hl1]⟩

/-- A transaction oracle whose commit fails. -/
def exTxFail : TxOracle := ⟨.ok (), .error (.errDomain 5)⟩

/-- C3 witness: with a failing commit the notify effect is absent from
both convenience runs; with a successful commit every notify occurrence
sits right after the commit effect. -/
theorem notifier_after_commit_witness :
    Effect.notify ∉ (GenFSM.Insert exFSM exTxFail exIns10).2 ∧
    Effect.notify ∉ (GenFSM.Update exFSM exTxFail exA exB exUpd20).2 ∧
    exTxOk.commit = .ok () ∧
    ([Effect.rowInsert exA, Effect.insertEvent (7 : Int) 1 none,
      Effect.commit] : List (Effect Int)).getLast? = some Effect.commit := by
  have h := notifier_after_commit exFSM exTxFail exIns10 exA exB exUpd20
  have h2 := notifier_after_commit exFSM exTxOk exIns10 exA exB exUpd20
  have h3 := h2.2.2.2.1 [Effect.rowInsert exA, Effect.insertEvent 7 1 none, Effect.commit]
    [] rfl
  exact ⟨(h.1 (.errDomain 5) rfl).1, (h.1 (.errDomain 5) rfl).2, h3.1, h3.2⟩

/-! ## Builder claims -/

/-- The `mapAssign` preserves all-insert-flags-false when the new node's
flag is false. -/
theorem mapAssign_insert_false {states : List (Int × StateNode)} {k : Int} {n : StateNode}
    (h : ∀ p ∈ states, p.2.insert = false) (hn : n.insert = false) :
    ∀ p ∈ mapAssign states k n, p.2.insert = false := by
  induction states with
  | nil =>
    intro p hp
    simp only [mapAssign, List.mem_singleton] at hp
    subst hp
    exact hn
  | cons q rest ih =>
    intro p hp
    simp only [mapAssign] at hp
    by_cases hk : q.1 = k
    · rw [if_pos hk] at hp
      rcases List.mem_cons.mp hp with hp | hp
      · subst hp
        exact hn
      · exact h p (List.mem_cons_of_mem q hp)
    · rw [if_neg hk] at hp
      rcases List.mem_cons.mp hp with hp | hp
      · subst hp
        exact h q (List.mem_cons_self q rest)
      · exact ih (fun r hr => h r (List.mem_cons_of_mem q hr)) p hp

/-- Rewriting lemmas for builder runs. -/
theorem builderUpdate_none {T : Type} (b : Builder T) (st : StatusVal) (u : Updater T)
    (next : List StatusVal) (h : lookupNode b.states st.ss = none) :
    Builder.Update b st u next =
      .ok { b with states := mapAssign b.states st.ss ⟨st, st.rt, u.tag, false, toMap next⟩ } := by
  unfold Builder.Update
  rw [h]

theorem builderUpdate_some {T : Type} (b : Builder T) (st : StatusVal) (u : Updater T)
    (next : List StatusVal) (n : StateNode) (h : lookupNode b.states st.ss = some n) :
    Builder.Update b st u next = .error .stateAlreadyAdded := by
  unfold Builder.Update
  rw [h]

theorem buildUpdates_cons {T : Type} (b : Builder T) (d : UpdDecl T)
    (ds : List (UpdDecl T)) :
    buildUpdates b (d :: ds) =
      match Builder.Update b d.st d.u d.next with
      | .error e => .error e
      | .ok b2 => buildUpdates b2 ds := rfl

theorem buildUpdates_cons_ok {T : Type} (b b2 : Builder T) (d : UpdDecl T)
    (ds : List (UpdDecl T)) (h : Builder.Update b d.st d.u d.next = .ok b2) :
    buildUpdates b (d :: ds) = buildUpdates b2 ds := by
  rw [buildUpdates_cons, h]

theorem buildUpdates_cons_err {T : Type} (b : Builder T) (d : UpdDecl T)
    (ds : List (UpdDecl T)) (e : BuildErr)
    (h : Builder.Update b d.st d.u d.next = .error e) :
    buildUpdates b (d :: ds) = .error e := by
  rw [buildUpdates_cons, h]

/-- The `buildUpdates` leaves `insertStatus` alone and keeps every node's
insert flag false. -/
theorem buildUpdates_flags {T : Type} {us : List (UpdDecl T)} :
    ∀ (b fb : Builder T), buildUpdates b us = .ok fb →
    (∀ p ∈ b.states, p.2.insert = false) →
    (∀ p ∈ fb.states, p.2.insert = false) ∧ fb.insertStatus = b.insertStatus := by
  induction us with
  | nil =>
    intro b fb h hb
    unfold buildUpdates at h
    injection h with h
    subst h
    exact ⟨hb, rfl⟩
  | cons d ds ih =>
    intro b fb h hb
    rcases hl : lookupNode b.states d.st.ss with _ | n
    · rw [buildUpdates_cons_ok b _ d ds (builderUpdate_none b d.st d.u d.next hl)] at h
      have hb2 : ∀ p ∈ mapAssign b.states d.st.ss
          ⟨d.st, d.st.rt, d.u.tag, false, toMap d.next⟩, p.2.insert = false :=
        mapAssign_insert_false hb rfl
      have hres := ih ⟨b.opts, b.events,
        mapAssign b.states d.st.ss ⟨d.st, d.st.rt, d.u.tag, false, toMap d.next⟩,
        b.insertStatus⟩ fb h hb2
      exact ⟨hres.1, hres.2⟩
    · rw [buildUpdates_cons_err b d ds _
        (builderUpdate_some b d.st d.u d.next n hl)] at h
      exact absurd h (by simp)

/-- C5 counterexample: a graph produced by a complete builder run on which
no node at all carries `insert = true` (the flag is dead; the code tracks
the insert state in `insertStatus` instead). -/
theorem insert_flag_counterexample :
    ∃ fsm : GenFSM Int,
      buildFSM exSink [] exA exIns10 [exB] [⟨exB, exUpd20, []⟩] = .ok fsm ∧
      fsm.states ≠ [] ∧
      ∀ p ∈ fsm.states, p.2.insert = false := by
  refine ⟨_, rfl, by decide, by decide⟩

/-- C5 amended: the builder never sets any node's insert flag (all remain
false); the unique insert state is recorded in the FSM's `insertStatus`
field by the one-shot `Initer.Insert` (the `Builder` type offers no
second insert declaration), and re-declaring an already-declared status
via `Update` fails deterministically (build-time panic) before any row is
touched. -/
theorem single_insert_state {T : Type} (events : EventSink T)
    (optfs : List (Options → Options)) (ist : StatusVal) (ins : Inserter T)
    (inext : List StatusVal) (us : List (UpdDecl T)) (fsm : GenFSM T)
    (h : buildFSM events optfs ist ins inext us = .ok fsm) :
    fsm.insertStatus = some ist ∧
    (∀ p ∈ fsm.states, p.2.insert = false) ∧
    (∀ (b : Builder T) st u next n, lookupNode b.states st.ss = some n →
      Builder.Update b st u next = .error .stateAlreadyAdded) := by
  unfold buildFSM at h
  rcases hu : buildUpdates (Initer.Insert (NewGenFSM events optfs) ist ins inext) us
    with e | fb <;> rw [hu] at h <;> simp only [Builder.Build] at h
  · exact absurd h (by simp)
  · injection h with h
    subst h
    have hb0 : ∀ p ∈ (Initer.Insert (NewGenFSM events optfs) ist ins inext).states,
        p.2.insert = false := by
      intro p hp
      simp only [Initer.Insert, NewGenFSM, mapAssign] at hp
      simp only [List.mem_singleton] at hp
      subst hp
      rfl
    obtain ⟨hflags, hstat⟩ := buildUpdates_flags _ _ hu hb0
    refine ⟨by rw [hstat]; rfl, hflags, fun b st u next n hn => ?_⟩
    exact builderUpdate_some b st u next n hn

/-- C5 witness: the amended facts observed on a concrete builder run,
including the panic on a duplicate declaration. -/
theorem single_insert_state_witness :
    ∃ fsm : GenFSM Int,
      buildFSM exSink [] exA exIns10 [exB] [⟨exB, exUpd20, []⟩] = .ok fsm ∧
      fsm.insertStatus = some exA ∧
      (∀ p ∈ fsm.states, p.2.insert = false) ∧
      Builder.Update (Initer.Insert (NewGenFSM exSink []) exA exIns10 [exB]) exA exUpd20 [] =
        .error .stateAlreadyAdded := by
  refine ⟨_, rfl, ?_⟩
  have h := single_insert_state exSink [] exA exIns10 [exB] [⟨exB, exUpd20, []⟩] _ rfl
  exact ⟨h.1, h.2.1,
    h.2.2 (Initer.Insert (NewGenFSM exSink []) exA exIns10 [exB]) exA exUpd20 []
      ⟨exA, 1, 10, false, [exB]⟩ rfl⟩

/-- An updater whose dynamic type is the insert node's bound type (a Go
type may implement both `Inserter` and `Updater`). -/
def exUpdBoth : Updater Int := ⟨10, fun _ _ => .ok 7, none, none⟩

/-- C6 counterexample: the builder happily produces a graph in which a
node's next set contains the insert status, and an `Update` whose
destination is the insert status succeeds, performing the row update. -/
theorem no_transition_to_insert_counterexample :
    ∃ fsm : GenFSM Int,
      buildFSM exSink [] exA exIns10 [exB] [⟨exB, exUpdBoth, [exA]⟩] = .ok fsm ∧
      fsm.insertStatus = some exA ∧
      (∃ p ∈ fsm.states, exA ∈ p.2.next) ∧
      (fsm.UpdateTx exB exA exUpdBoth).1 = .ok () ∧
      Effect.rowUpdate exB exA ∈ (fsm.UpdateTx exB exA exUpdBoth).2 := by
  refine ⟨_, rfl, rfl, by decide, rfl, by decide⟩

/-- C6 amended: no build-time or call-time check prevents the insert
status from appearing in a next set; when it does, and the `UpdateTx`
checks pass, the transition into the insert state executes (the
restriction is enforced by convention only). -/
theorem transition_to_insert_possible {T : Type} (fsm : GenFSM T) (ist f : StatusVal)
    (u : Updater T) (tn fn : StateNode) (id : T) (md : Metadata)
    (trm trv : List (Effect T))
    (h1 : fsm.insertStatus = some ist)
    (h2 : lookupNode fsm.states ist.ss = some tn) (h3 : tn.req = u.tag)
    (h4 : lookupNode fsm.states f.ss = some fn) (h5 : ist ∈ fn.next)
    (h6 : u.update f ist = .ok id)
    (h7 : metaStepU fsm.opts u f ist = (.ok md, trm))
    (h8 : fsm.events.insertWithMetadata id tn.t md = .ok ())
    (h9 : validateStepU fsm.opts u f ist = (.ok (), trv)) :
    fsm.UpdateTx f ist u =
      (.ok (), [.rowUpdate f ist] ++ trm ++ [.insertEvent id tn.t md] ++ trv) := by
  simp [GenFSM.UpdateTx, h2, h3, h4, h5, updateTx, h6, h7, h8, h9]

/-- C6 witness: the amended behavior on the concrete cyclic graph. -/
theorem transition_to_insert_possible_witness :
    ∃ fsm : GenFSM Int,
      buildFSM exSink [] exA exIns10 [exB] [⟨exB, exUpdBoth, [exA]⟩] = .ok fsm ∧
      fsm.UpdateTx exB exA exUpdBoth =
        (.ok (), [.rowUpdate exB exA] ++ [] ++ [.insertEvent 7 1 none] ++ []) := by
  refine ⟨_, rfl, ?_⟩
  exact transition_to_insert_possible _ exA exB exUpdBoth
    ⟨exA, 1, 10, false, [exB]⟩ ⟨exB, 2, 10, false, [exA]⟩ 7 none [] []
    rfl rfl rfl rfl (by decide) rfl rfl rfl rfl

/-! ## buildPaths analysis -/

theorem buildPaths_eq_none (states : List (Int × StateNode)) (f : StatusVal)
    (hf : lookupNode states f.ss = none) :
    buildPaths states f = ([[zeroNode]], states ++ [(f.ss, zeroNode)]) := by
  rw [buildPaths]
  split
  · rfl
  · rename_i here heq
    rw [hf] at heq
    simp at heq

theorem buildPaths_eq_some (states : List (Int × StateNode)) (f : StatusVal)
    (here : StateNode) (hf : lookupNode states f.ss = some here) :
    buildPaths states f =
      ((if here.next.isEmpty || (buildPathsLoop (eraseKey states f.ss) here.next).2
        then (buildPathsLoop (eraseKey states f.ss) here.next).1.map (fun q => here :: q)
          ++ [[here]]
        else (buildPathsLoop (eraseKey states f.ss) here.next).1.map (fun q => here :: q)),
       eraseKey states f.ss ++ [(f.ss, here)]) := by
  rw [buildPaths]
  split
  · rename_i heq
    rw [hf] at heq
    simp at heq
  · rename_i here2 heq
    rw [hf] at heq
    injection heq with heq
    subst heq
    rfl

theorem buildPathsLoop_nil (states1 : List (Int × StateNode)) :
    buildPathsLoop states1 [] = ([], false) := by
  rw [buildPathsLoop]

theorem buildPathsLoop_cons_none (states1 : List (Int × StateNode)) (nx : StatusVal)
    (rest : List StatusVal) (h : lookupNode states1 nx.ss = none) :
    buildPathsLoop states1 (nx :: rest) = ((buildPathsLoop states1 rest).1, true) := by
  rw [buildPathsLoop]
  split
  · rfl
  · rename_i n heq
    rw [h] at heq
    simp at heq

theorem buildPathsLoop_cons_some (states1 : List (Int × StateNode)) (nx : StatusVal)
    (rest : List StatusVal) (n : StateNode) (h : lookupNode states1 nx.ss = some n) :
    buildPathsLoop states1 (nx :: rest) =
      ((buildPaths states1 nx).1 ++ (buildPathsLoop states1 rest).1,
       (buildPathsLoop states1 rest).2) := by
  rw [buildPathsLoop]
  split
  · rename_i heq
    rw [h] at heq
    simp at heq
  · rfl

/-- Entries found by lookup are entries of the list. -/
theorem lookupNode_mem {states : List (Int × StateNode)} {k : Int} {n : StateNode}
    (h : lookupNode states k = some n) : (k, n) ∈ states := by
  induction states with
  | nil => simp [lookupNode] at h
  | cons q rest ih =>
    by_cases hk : q.1 = k
    · rw [lookupNode, if_pos hk] at h
      injection h with h
      subst h
      subst hk
      simp
    · rw [lookupNode, if_neg hk] at h
      exact List.mem_cons_of_mem q (ih h)

/-- A present entry makes lookup succeed. -/
theorem mem_lookupNode_ne_none {states : List (Int × StateNode)} {k : Int} {n : StateNode}
    (h : (k, n) ∈ states) : lookupNode states k ≠ none := by
  induction states with
  | nil => simp at h
  | cons q rest ih =>
    rcases List.mem_cons.mp h with h | h
    · rw [lookupNode, if_pos (congrArg Prod.fst h.symm)]
      simp
    · by_cases hk : q.1 = k
      · rw [lookupNode, if_pos hk]
        simp
      · rw [lookupNode, if_neg hk]
        exact ih h

/-- The `eraseKey` keeps a sublist. -/
theorem eraseKey_sublist (states : List (Int × StateNode)) (k : Int) :
    (eraseKey states k).Sublist states := by
  induction states with
  | nil => simp [eraseKey]
  | cons q rest ih =>
    rw [eraseKey]
    by_cases hk : q.1 = k
    · rw [if_pos hk]
      exact (List.sublist_cons_self q rest)
    · rw [if_neg hk]
      exact ih.cons₂ q

theorem eraseKey_subset {states : List (Int × StateNode)} {k : Int} {q : Int × StateNode}
    (h : q ∈ eraseKey states k) : q ∈ states :=
  (eraseKey_sublist states k).subset h

theorem eraseKey_keys_nodup {states : List (Int × StateNode)} {k : Int}
    (h : (states.map Prod.fst).Nodup) : ((eraseKey states k).map Prod.fst).Nodup :=
  ((eraseKey_sublist states k).map Prod.fst).nodup h

/-- Erasing a key removes it entirely when keys are unique. -/
theorem lookupNode_eraseKey_self {states : List (Int × StateNode)} {k : Int}
    (hnd : (states.map Prod.fst).Nodup) : lookupNode (eraseKey states k) k = none := by
  induction states with
  | nil => rfl
  | cons q rest ih =>
    rw [List.map_cons, List.nodup_cons] at hnd
    rw [eraseKey]
    by_cases hk : q.1 = k
    · rw [if_pos hk]
      subst hk
      rcases hl : lookupNode rest q.1 with _ | n
      · rfl
      · exact absurd (List.mem_map_of_mem Prod.fst (lookupNode_mem hl)) hnd.1
    · rw [if_neg hk, lookupNode, if_neg hk]
      exact ih hnd.2

/-- Erasing one key leaves other lookups unchanged. -/
theorem lookupNode_eraseKey_ne (states : List (Int × StateNode)) (k k2 : Int)
    (h : k2 ≠ k) : lookupNode (eraseKey states k) k2 = lookupNode states k2 := by
  induction states with
  | nil => rfl
  | cons q rest ih =>
    rw [eraseKey]
    by_cases hk : q.1 = k
    · rw [if_pos hk, lookupNode, if_neg (by rw [hk]; exact fun hh => h hh.symm)]
    · rw [if_neg hk, lookupNode, lookupNode]
      by_cases hk2 : q.1 = k2
      · rw [if_pos hk2, if_pos hk2]
      · rw [if_neg hk2, if_neg hk2]
        exact ih

/-- Lookup across an append. -/
theorem lookupNode_append (l1 l2 : List (Int × StateNode)) (k : Int) :
    lookupNode (l1 ++ l2) k =
      match lookupNode l1 k with
      | some n => some n
      | none => lookupNode l2 k := by
  induction l1 with
  | nil => rfl
  | cons q rest ih =>
    rw [List.cons_append, lookupNode, lookupNode]
    by_cases hk : q.1 = k
    · rw [if_pos hk, if_pos hk]
    · rw [if_neg hk, if_neg hk]
      exact ih

/-- Specification of the paths `buildPaths` emits: starting at `f`'s node,
either stop (the node is terminal, or some successor is unavailable in the
map-minus-current-node), or step to an available successor and continue in
the shrunken map.  This is exactly the cycle-breaking DFS of the source. -/
inductive IsDfsPath : List (Int × StateNode) → StatusVal → List StateNode → Prop where
  | single (states : List (Int × StateNode)) (f : StatusVal) (here : StateNode)
      (hf : lookupNode states f.ss = some here)
      (hend : here.next = [] ∨
        ∃ s ∈ here.next, lookupNode (eraseKey states f.ss) s.ss = none) :
      IsDfsPath states f [here]
  | cons (states : List (Int × StateNode)) (f : StatusVal) (here : StateNode)
      (nx : StatusVal) (p : List StateNode)
      (hf : lookupNode states f.ss = some here)
      (hnx : nx ∈ here.next)
      (havail : lookupNode (eraseKey states f.ss) nx.ss ≠ none)
      (hp : IsDfsPath (eraseKey states f.ss) nx p) :
      IsDfsPath states f (here :: p)

/-- Membership in the loop output: paths produced by some available
successor. -/
theorem buildPathsLoop_mem (states1 : List (Int × StateNode)) (l : List StatusVal)
    (p : List StateNode) :
    p ∈ (buildPathsLoop states1 l).1 ↔
      ∃ nx ∈ l, lookupNode states1 nx.ss ≠ none ∧ p ∈ (buildPaths states1 nx).1 := by
  induction l with
  | nil => simp [buildPathsLoop_nil]
  | cons nx rest ih =>
    rcases hl : lookupNode states1 nx.ss with _ | n
    · rw [buildPathsLoop_cons_none states1 nx rest hl]
      simp only [ih]
      constructor
      · rintro ⟨ny, hny, hy1, hy2⟩
        exact ⟨ny, List.mem_cons_of_mem nx hny, hy1, hy2⟩
      · rintro ⟨ny, hny, hy1, hy2⟩
        rcases List.mem_cons.mp hny with h | h
        · subst h
          exact absurd hl hy1
        · exact ⟨ny, h, hy1, hy2⟩
    · rw [buildPathsLoop_cons_some states1 nx rest n hl]
      simp only [List.mem_append, ih]
      constructor
      · rintro (hp | ⟨ny, hny, hy1, hy2⟩)
        · exact ⟨nx, List.mem_cons_self nx rest, by simp [hl], hp⟩
        · exact ⟨ny, List.mem_cons_of_mem nx hny, hy1, hy2⟩
      · rintro ⟨ny, hny, hy1, hy2⟩
        rcases List.mem_cons.mp hny with h | h
        · subst h
          exact Or.inl hy2
        · exact Or.inr ⟨ny, h, hy1, hy2⟩

/-- The loop's hasEnd flag: some successor is unavailable. -/
theorem buildPathsLoop_hasEnd (states1 : List (Int × StateNode)) (l : List StatusVal) :
    (buildPathsLoop states1 l).2 = true ↔ ∃ nx ∈ l, lookupNode states1 nx.ss = none := by
  induction l with
  | nil => simp [buildPathsLoop_nil]
  | cons nx rest ih =>
    rcases hl : lookupNode states1 nx.ss with _ | n
    · rw [buildPathsLoop_cons_none states1 nx rest hl]
      simp only []
      constructor
      · intro _
        exact ⟨nx, List.mem_cons_self nx rest, hl⟩
      · intro _
        trivial
    · rw [buildPathsLoop_cons_some states1 nx rest n hl]
      simp only [ih]
      constructor
      · rintro ⟨ny, hny, hy⟩
        exact ⟨ny, List.mem_cons_of_mem nx hny, hy⟩
      · rintro ⟨ny, hny, hy⟩
        rcases List.mem_cons.mp hny with h | h
        · subst h
          rw [hl] at hy
          exact absurd hy (by simp)
        · exact ⟨ny, h, hy⟩

/-- The emitted path list is exactly the `IsDfsPath` family. -/
theorem buildPaths_mem (states : List (Int × StateNode)) (f : StatusVal)
    (here : StateNode) (hf : lookupNode states f.ss = some here) (p : List StateNode) :
    p ∈ (buildPaths states f).1 ↔ IsDfsPath states f p := by
  rw [buildPaths_eq_some states f here hf]
  simp only []
  constructor
  · intro hp
    have hmain : ∀ q ∈ (buildPathsLoop (eraseKey states f.ss) here.next).1.map
        (fun q => here :: q), IsDfsPath states f q := by
      intro q hq
      obtain ⟨q0, hq0, rfl⟩ := List.mem_map.mp hq
      obtain ⟨nx, hnx, hav, hq2⟩ := (buildPathsLoop_mem _ _ _).mp hq0
      obtain ⟨n2, hn2⟩ := Option.ne_none_iff_exists'.mp hav
      have hrec := (buildPaths_mem (eraseKey states f.ss) nx n2 hn2 q0).mp hq2
      exact IsDfsPath.cons states f here nx q0 hf hnx hav hrec
    by_cases hend : (here.next.isEmpty
        || (buildPathsLoop (eraseKey states f.ss) here.next).2) = true
    · rw [if_pos hend] at hp
      rcases List.mem_append.mp hp with hp | hp
      · exact hmain p hp
      · simp only [List.mem_singleton] at hp
        subst hp
        refine IsDfsPath.single states f here hf ?_
        simp only [Bool.or_eq_true] at hend
        rcases hend with hh | hh
        · exact Or.inl (List.isEmpty_iff.mp hh)
        · exact Or.inr ((buildPathsLoop_hasEnd _ _).mp hh)
    · rw [if_neg hend] at hp
      exact hmain p hp
  · intro hp
    cases hp with
    | single _ _ here2 hf2 hend2 =>
      rw [hf] at hf2
      injection hf2 with hf2
      subst hf2
      have hE : (here.next.isEmpty
          || (buildPathsLoop (eraseKey states f.ss) here.next).2) = true := by
        simp only [Bool.or_eq_true]
        rcases hend2 with hh | hh
        · exact Or.inl (by simp [hh])
        · exact Or.inr ((buildPathsLoop_hasEnd _ _).mpr hh)
      rw [if_pos hE]
      simp
    | cons _ _ here2 nx q hf2 hnx hav hq =>
      rw [hf] at hf2
      injection hf2 with hf2
      subst hf2
      obtain ⟨n2, hn2⟩ := Option.ne_none_iff_exists'.mp hav
      have hrec := (buildPaths_mem (eraseKey states f.ss) nx n2 hn2 q).mpr hq
      have hq0 : here :: q ∈ (buildPathsLoop (eraseKey states f.ss) here.next).1.map
          (fun r => here :: r) :=
        List.mem_map.mpr ⟨q, (buildPathsLoop_mem _ _ _).mpr ⟨nx, hnx, hav, hrec⟩, rfl⟩
      by_cases hend : (here.next.isEmpty
          || (buildPathsLoop (eraseKey states f.ss) here.next).2) = true
      · rw [if_pos hend]
        exact List.mem_append.mpr (Or.inl hq0)
      · rw [if_neg hend]
        exact hq0
termination_by states.length
decreasing_by
  all_goals exact eraseKey_length_lt hf

/-- The delete/restore pair leaves the map unchanged (as a key-value map)
when the start key is present and keys are unique. -/
theorem buildPaths_restores (states : List (Int × StateNode)) (f : StatusVal)
    (here : StateNode) (hf : lookupNode states f.ss = some here)
    (hnd : (states.map Prod.fst).Nodup) :
    ∀ k, lookupNode (buildPaths states f).2 k = lookupNode states k := by
  intro k
  rw [buildPaths_eq_some states f here hf]
  simp only []
  rw [lookupNode_append]
  by_cases hk : k = f.ss
  · subst hk
    rw [lookupNode_eraseKey_self hnd]
    simp [lookupNode, hf]
  · rw [lookupNode_eraseKey_ne states f.ss k (by exact hk)]
    rcases hl : lookupNode states k with _ | n
    · have hk2 : f.ss ≠ k := fun hh => hk hh.symm
      simp [lookupNode, hk2]
    · rfl

/-- Every node on a DFS path is an entry of the map. -/
theorem isDfsPath_nodes {m : List (Int × StateNode)} {g : StatusVal} {p : List StateNode}
    (h : IsDfsPath m g p) : ∀ n ∈ p, ∃ k, (k, n) ∈ m := by
  induction h with
  | single states f here hf hend =>
    intro n hn
    simp only [List.mem_singleton] at hn
    subst hn
    exact ⟨f.ss, lookupNode_mem hf⟩
  | cons states f here nx p hf hnx hav hp ih =>
    intro n hn
    rcases List.mem_cons.mp hn with hn | hn
    · subst hn
      exact ⟨f.ss, lookupNode_mem hf⟩
    · obtain ⟨k, hk⟩ := ih n hn
      exact ⟨k, eraseKey_subset hk⟩

/-- Structural properties of a DFS path over a coherent unique-key map:
it starts at the start status's node, never repeats a status ordinal
(simple path), and each consecutive pair follows a declared next edge. -/
theorem isDfsPath_props {m : List (Int × StateNode)} {g : StatusVal} {p : List StateNode}
    (h : IsDfsPath m g p) :
    (∀ q ∈ m, q.2.st.ss = q.1) → (m.map Prod.fst).Nodup →
    ∃ here, lookupNode m g.ss = some here ∧ p.head? = some here ∧
      (p.map fun n => n.st.ss).Nodup ∧
      List.Chain' (fun a b => ∃ s ∈ a.next, b.st.ss = s.ss) p := by
  induction h with
  | single states f here hf hend =>
    intro hcoh hnd
    exact ⟨here, hf, rfl, by simp, by simp⟩
  | cons states f here nx p hf hnx hav hp ih =>
    intro hcoh hnd
    have hcoh2 : ∀ q ∈ eraseKey states f.ss, q.2.st.ss = q.1 :=
      fun q hq => hcoh q (eraseKey_subset hq)
    have hnd2 := eraseKey_keys_nodup (k := f.ss) hnd
    obtain ⟨here2, hf2, hhead, hnodup, hchain⟩ := ih hcoh2 hnd2
    have hheress : here.st.ss = f.ss := hcoh (f.ss, here) (lookupNode_mem hf)
    have hnotin : here.st.ss ∉ p.map fun n => n.st.ss := by
      intro hmem
      obtain ⟨n, hn, hnss⟩ := List.mem_map.mp hmem
      obtain ⟨k, hk⟩ := isDfsPath_nodes hp n hn
      have hkss : n.st.ss = k := hcoh2 (k, n) hk
      have : lookupNode (eraseKey states f.ss) k ≠ none := mem_lookupNode_ne_none hk
      rw [← hkss, hnss, hheress] at this
      exact this (lookupNode_eraseKey_self hnd)
    have hhd2ss : here2.st.ss = nx.ss := hcoh2 (nx.ss, here2) (lookupNode_mem hf2)
    refine ⟨here, hf, rfl, List.nodup_cons.mpr ⟨hnotin, hnodup⟩, ?_⟩
    cases p with
    | nil => simp
    | cons q0 p0 =>
      simp only [List.head?] at hhead
      injection hhead with hhead
      subst hhead
      exact List.chain'_cons.mpr ⟨⟨nx, hnx, hhd2ss⟩, hchain⟩

/-- C8 counterexample: on a state map that does not contain the start
status, the call does not leave the map unchanged — the delete is a no-op
and the final assignment adds the zero node under the missing key (and
the single emitted path is the zero node, not a path of the graph). -/
theorem buildPaths_counterexample :
    buildPaths ([] : List (Int × StateNode)) exA = ([[zeroNode]], [(1, zeroNode)]) ∧
    lookupNode (buildPaths ([] : List (Int × StateNode)) exA).2 1 ≠
      lookupNode ([] : List (Int × StateNode)) 1 := by
  have h := buildPaths_eq_none [] exA rfl
  constructor
  · exact h
  · rw [h]
    simp [lookupNode, exA]

/-- C8 amended: when the start status is a declared key of the state map
(as it always is when TestFSM drives a built FSM), buildPaths removes the
current node before recursing, restores it before returning (the map is
unchanged as a key-value map), and the emitted list is exactly the set of
cycle-breaking DFS paths: simple paths from the start node following
declared next edges, each ending where the node is terminal or has a
successor unavailable in the shrunken map. -/
theorem buildPaths_correct (states : List (Int × StateNode)) (f : StatusVal)
    (here : StateNode) (hf : lookupNode states f.ss = some here)
    (hnd : (states.map Prod.fst).Nodup)
    (hcoh : ∀ q ∈ states, q.2.st.ss = q.1) :
    (∀ k, lookupNode (buildPaths states f).2 k = lookupNode states k) ∧
    (∀ p, p ∈ (buildPaths states f).1 ↔ IsDfsPath states f p) ∧
    (∀ p, p ∈ (buildPaths states f).1 →
      p.head? = some here ∧ (p.map fun n => n.st.ss).Nodup ∧
      List.Chain' (fun a b => ∃ s ∈ a.next, b.st.ss = s.ss) p) := by
  refine ⟨buildPaths_restores states f here hf hnd,
    fun p => buildPaths_mem states f here hf p, fun p hp => ?_⟩
  have hdfs := (buildPaths_mem states f here hf p).mp hp
  obtain ⟨here2, hf2, hhead, hnodup, hchain⟩ := isDfsPath_props hdfs hcoh hnd
  rw [hf] at hf2
  injection hf2 with hf2
  subst hf2
  exact ⟨hhead, hnodup, hchain⟩

/-- C8 witness: the amended facts observed on the concrete two-node FSM. -/
theorem buildPaths_correct_witness :
    lookupNode (buildPaths exFSM.states exA).2 1 = lookupNode exFSM.states 1 ∧
    lookupNode (buildPaths exFSM.states exA).2 2 = lookupNode exFSM.states 2 ∧
    ([⟨exA, 1, 10, false, [exB]⟩, ⟨exB, 2, 20, false, []⟩] ∈
        (buildPaths exFSM.states exA).1 ↔
      IsDfsPath exFSM.states exA
        [⟨exA, 1, 10, false, [exB]⟩, ⟨exB, 2, 20, false, []⟩]) := by
  have h := buildPaths_correct exFSM.states exA ⟨exA, 1, 10, false, [exB]⟩ rfl
    (by decide) (by decide)
  exact ⟨h.1 1, h.1 2, h.2.1 _⟩

/-! ## TestFSM analysis -/

/-- The found set after a successful update phase: the statuses entered
via `Update`, on top of what was already found. -/
theorem runUpdates_found {T : Type} (fsm : GenFSM T) (db : TxOracle)
    (su : Nat → T → Except GoErr (Updater T)) (id : T) :
    ∀ (ups : List StateNode) (fromSt : StatusVal) (found0 found : List Int),
    runUpdates fsm db su id fromSt ups found0 = .ok found →
    ∀ k, (k ∈ found ↔ k ∈ found0 ∨ ∃ node ∈ ups, node.st.ss = k) := by
  intro ups
  induction ups with
  | nil =>
    intro fromSt found0 found h k
    unfold runUpdates at h
    injection h with h
    subst h
    simp
  | cons up rest ih =>
    intro fromSt found0 found h k
    unfold runUpdates at h
    rcases hsu : su up.req id with e | u <;> rw [hsu] at h
    · simp at h
    · have h2 : (match (fsm.Update db fromSt up.st u).1 with
        | .error e => (Except.error e : Except GoErr (List Int))
        | .ok _ => runUpdates fsm db su id up.st rest (found0 ++ [up.st.ss])) =
          .ok found := h
      rcases hup : (fsm.Update db fromSt up.st u).1 with e | u2 <;> rw [hup] at h2
      · simp at h2
      · have h3 : runUpdates fsm db su id up.st rest (found0 ++ [up.st.ss]) =
          .ok found := h2
        have hrec := ih up.st (found0 ++ [up.st.ss]) found h3 k
        rw [hrec]
        simp only [List.mem_append, List.mem_singleton, List.mem_cons,
          List.not_mem_nil, or_false]
        constructor
        · rintro (⟨hk | hk⟩ | ⟨node, hn, hns⟩)
          · exact Or.inl hk
          · exact Or.inr ⟨up, Or.inl rfl, hk.symm⟩
          · exact Or.inr ⟨node, Or.inr hn, hns⟩
        · rintro (hk | ⟨node, hn | hn, hns⟩)
          · exact Or.inl (Or.inl hk)
          · subst hn
            exact Or.inl (Or.inr hns.symm)
          · exact Or.inr ⟨node, hn, hns⟩

/-- The found set after one successful path run. -/
theorem runPath_found {T : Type} (fsm : GenFSM T) (db : TxOracle)
    (si : Nat → Except GoErr (Inserter T)) (su : Nat → T → Except GoErr (Updater T))
    (path : List StateNode) (found0 found : List Int)
    (h : runPath fsm db si su path found0 = .ok found) :
    ∀ k, (k ∈ found ↔ k ∈ found0 ∨ ∃ node ∈ path.tail, node.st.ss = k) := by
  intro k
  unfold runPath at h
  rcases path with _ | ⟨head, rest⟩
  · simp at h
  · have h0 : (match si head.req with
      | .error e => (Except.error e : Except GoErr (List Int))
      | .ok ins =>
        match (fsm.Insert db ins).1 with
        | .error e => .error e
        | .ok id => runUpdates fsm db su id head.st rest found0) = .ok found := h
    rcases hsi : si head.req with e | ins <;> rw [hsi] at h0
    · simp at h0
    · have h2 : (match (fsm.Insert db ins).1 with
        | .error e => (Except.error e : Except GoErr (List Int))
        | .ok id => runUpdates fsm db su id head.st rest found0) = .ok found := h0
      rcases hin : (fsm.Insert db ins).1 with e | id <;> rw [hin] at h2
      · simp at h2
      · have h3 : runUpdates fsm db su id head.st rest found0 = .ok found := h2
        exact runUpdates_found fsm db su id rest head.st found0 found h3 k

/-- The found set after all paths ran successfully. -/
theorem runPaths_found {T : Type} (fsm : GenFSM T) (db : TxOracle)
    (si : Nat → Except GoErr (Inserter T)) (su : Nat → T → Except GoErr (Updater T)) :
    ∀ (paths : List (List StateNode)) (found0 found : List Int),
    runPaths fsm db si su paths found0 = .ok found →
    ∀ k, (k ∈ found ↔ k ∈ found0 ∨
      ∃ path ∈ paths, ∃ node ∈ path.tail, node.st.ss = k) := by
  intro paths
  induction paths with
  | nil =>
    intro found0 found h k
    unfold runPaths at h
    injection h with h
    subst h
    simp
  | cons p ps ih =>
    intro found0 found h k
    unfold runPaths at h
    rcases hp : runPath fsm db si su p found0 with e | found1 <;> rw [hp] at h
    · simp at h
    · have hh : runPaths fsm db si su ps found1 = .ok found := h
      have h1 := runPath_found fsm db si su p found0 found1 hp k
      have h2 := ih found1 found hh k
      rw [h2, h1]
      simp only [List.mem_cons]
      constructor
      · rintro ((hk | ⟨node, hn, hns⟩) | ⟨q, hq, hrest⟩)
        · exact Or.inl hk
        · exact Or.inr ⟨p, Or.inl rfl, node, hn, hns⟩
        · exact Or.inr ⟨q, Or.inr hq, hrest⟩
      · rintro (hk | ⟨q, hq | hq, hrest⟩)
        · exact Or.inl (Or.inl hk)
        · subst hq
          exact Or.inl (Or.inr hrest)
        · exact Or.inr ⟨q, hq, hrest⟩

/-- The final check of TestFSM. -/
theorem anyUnreached_iff (states : List (Int × StateNode)) (found : List Int) :
    anyUnreached states found = true ↔ ∃ q ∈ states, q.1 ∉ found := by
  simp [anyUnreached]

/-- C7: with a successful run of every enumerated path, TestFSM reports
the not-reachable error iff some declared status key was never visited,
where the insert status counts as visited and every other status is
visited exactly when some executed path entered it via an Update. -/
theorem testFSM_not_reachable_iff {T : Type} (fsm : GenFSM T) (db : TxOracle)
    (si : Nat → Except GoErr (Inserter T)) (su : Nat → T → Except GoErr (Updater T))
    (ist : StatusVal) (found : List Int)
    (h1 : fsm.insertStatus = some ist)
    (h2 : runPaths fsm db si su (buildPaths fsm.states ist).1 [ist.ss] = .ok found) :
    (TestFSM fsm db si su = .error .errNotReachable ↔ ∃ q ∈ fsm.states, q.1 ∉ found) ∧
    (∀ k, k ∈ found ↔ k = ist.ss ∨
      ∃ path ∈ (buildPaths fsm.states ist).1, ∃ node ∈ path.tail, node.st.ss = k) := by
  have htest : TestFSM fsm db si su =
      (if anyUnreached fsm.states found then .error .errNotReachable else .ok ()) := by
    have ht1 : TestFSM fsm db si su =
        (match runPaths fsm db si su (buildPaths fsm.states ist).1 [ist.ss] with
         | .error e => .error e
         | .ok fnd => if anyUnreached fsm.states fnd then
             Except.error GoErr.errNotReachable else .ok ()) := by
      unfold TestFSM
      rw [h1]
    rw [ht1, h2]
  constructor
  · rw [htest]
    by_cases ha : anyUnreached fsm.states found = true
    · rw [if_pos ha]
      constructor
      · intro _
        exact (anyUnreached_iff _ _).mp ha
      · intro _
        rfl
    · rw [if_neg ha]
      constructor
      · intro hcontr
        exact absurd hcontr (by simp)
      · intro hex
        exact absurd ((anyUnreached_iff _ _).mpr hex) ha
  · intro k
    have := runPaths_found fsm db si su (buildPaths fsm.states ist).1 [ist.ss] found h2 k
    rw [this]
    simp

/-- Request synthesizers that produce a request of the demanded type tag
with always-succeeding capabilities (abstracting randomInsert/randomUpdate). -/
def exSynthIns : Nat → Except GoErr (Inserter Int) :=
  fun tag => .ok ⟨tag, fun _ => .ok 7, none, none⟩

def exSynthUpd : Nat → Int → Except GoErr (Updater Int) :=
  fun tag id => .ok ⟨tag, fun _ _ => .ok id, none, none⟩

/-- A status declared in the graph but never referenced by any next set. -/
def exD : StatusVal := ⟨4, 4, 4⟩

/-- The two-node FSM plus an orphan node `exD`. -/
def exFSMOrphan : GenFSM Int :=
  { opts := ⟨false, false⟩
    events := exSink
    states := [(1, ⟨exA, 1, 10, false, [exB]⟩), (2, ⟨exB, 2, 20, false, []⟩),
      (4, ⟨exD, 4, 30, false, []⟩)]
    insertStatus := some exA }

/-- C7 witness: on the reachable two-node FSM, TestFSM does not report
the not-reachable error (the iff's right side fails); on the FSM with an
orphan status it does. -/
theorem testFSM_not_reachable_iff_witness :
    (TestFSM exFSM exTxOk exSynthIns exSynthUpd = .error .errNotReachable ↔
      ∃ q ∈ exFSM.states, q.1 ∉ [exA.ss, exB.ss]) ∧
    TestFSM exFSMOrphan exTxOk exSynthIns exSynthUpd = .error .errNotReachable := by
  have hpaths : (buildPaths exFSM.states exA).1 =
      [[⟨exA, 1, 10, false, [exB]⟩, ⟨exB, 2, 20, false, []⟩]] := by
    simp [buildPaths_eq_some, buildPaths_eq_none, buildPathsLoop, lookupNode, eraseKey,
      exFSM, exA, exB]
  have hpathsO : (buildPaths exFSMOrphan.states exA).1 =
      [[⟨exA, 1, 10, false, [exB]⟩, ⟨exB, 2, 20, false, []⟩]] := by
    simp [buildPaths_eq_some, buildPaths_eq_none, buildPathsLoop, lookupNode, eraseKey,
      exFSMOrphan, exA, exB]
  have h2 : runPaths exFSM exTxOk exSynthIns exSynthUpd
      (buildPaths exFSM.states exA).1 [exA.ss] = .ok [exA.ss, exB.ss] := by
    rw [hpaths]
    rfl
  have h2O : runPaths exFSMOrphan exTxOk exSynthIns exSynthUpd
      (buildPaths exFSMOrphan.states exA).1 [exA.ss] = .ok [exA.ss, exB.ss] := by
    rw [hpathsO]
    rfl
  constructor
  · exact (testFSM_not_reachable_iff exFSM exTxOk exSynthIns exSynthUpd exA
      [exA.ss, exB.ss] rfl h2).1
  · exact (testFSM_not_reachable_iff exFSMOrphan exTxOk exSynthIns exSynthUpd exA
      [exA.ss, exB.ss] rfl h2O).1.mpr ⟨(4, ⟨exD, 4, 30, false, []⟩), by decide, by decide⟩

end Shift
